import Mathlib

/-!
A verification development for the `mybase` option-handling library.

The development shallowly embeds three layers of the library:

* the value tokenizer (`unquote`, `splitValue`) that strips a full quote
  wrap and resolves backslash escapes, and splits raw values on a
  delimiter while respecting quote spans;
* the option-file line grammar (`parseLine`) and the file parser
  (`File.parse`, driven by `parseStep`), which builds a section / key /
  value structure and validates keys against the known options;
* the precedence resolver (`Config.rebuild` and the derived accessors
  `Changed` / `OnCLI` / `Get`), which merges defaults, caller-added
  sources, the command line, positional arguments and runtime overrides
  into a single attributed view.

Strings are modelled as `List Char`; Go maps are modelled as
association lists whose `insert` prepends (so a later write shadows an
earlier one under `List.lookup`), and Go pointer structure (the section
objects shared between `File.Sections` and `File.SectionIndex`, and the
runtime-override map shared or not shared by `Config.Clone`) is
modelled by indices into an explicit store.
-/

namespace Mybase

/-! ## Basic character and string utilities -/

/-- Whitespace, as used by the trimming in the option parser (the Go
code trims with `unicode.IsSpace`; the model covers the ASCII
whitespace characters). -/
def isWS (c : Char) : Bool :=
  c == ' ' || c == '\t' || c == '\r' || c == '\n'

/-- The three quote characters recognized by the value grammar. -/
def isQuoteChar (c : Char) : Bool :=
  c == '\'' || c == '"' || c == '`'

/-- Trim leading whitespace. -/
def trimLeft (s : List Char) : List Char :=
  s.dropWhile isWS

/-- Trim trailing whitespace. -/
def trimRight (s : List Char) : List Char :=
  (trimLeft s.reverse).reverse

/-- Trim surrounding whitespace (the model of `strings.TrimSpace` /
`strings.TrimFunc(·, unicode.IsSpace)`). -/
def trim (s : List Char) : List Char :=
  trimRight (trimLeft s)

/-! ## Value unquoter (spec §4.2, Contract A)

Modelled from the spec: the function `unquote` of the value tokenizer is
not part of the sources under scrutiny (only its tests are), so the
definitions below follow the spec's words.  A raw string is *fully
wrapped* when its first and last characters are the same quote
character and no unescaped occurrence of that quote character appears
strictly inside; `unquote` strips the wrapping pair of a fully wrapped
string and resolves every backslash escape in the interior, and is the
identity otherwise. -/

/-- Scan left to right; a backslash escapes the character that follows
it.  Returns `true` when an unescaped occurrence of `q` is found. -/
def hasUnescaped (q : Char) : List Char → Bool
  | [] => false
  | c :: rest =>
    if c == '\\' then
      match rest with
      | [] => false
      | _ :: rest2 => hasUnescaped q rest2
    else
      c == q || hasUnescaped q rest

/-- Modelled from the spec: resolve backslash escapes; every `\X`
becomes the literal `X`, whatever `X` is.  A lone trailing backslash is
kept as-is. -/
def resolveEscapes : List Char → List Char
  | [] => []
  | c :: rest =>
    if c == '\\' then
      match rest with
      | [] => [c]
      | d :: rest2 => d :: resolveEscapes rest2
    else
      c :: resolveEscapes rest

/-- Modelled from the spec: full quote-wrap detection.  The first and
last characters must be the same quote character and the interior must
not contain an unescaped occurrence of it. -/
def fullyWrapped : List Char → Bool
  | [] => false
  | c :: rest =>
    isQuoteChar c && !rest.isEmpty && rest.getLast? == some c &&
      !hasUnescaped c rest.dropLast

/-- Modelled from the spec: `unquote` (Contract A of the value
tokenizer).  Strips one full quote wrap and resolves escapes inside it;
returns any other input unchanged. -/
def unquote (s : List Char) : List Char :=
  if fullyWrapped s then resolveEscapes ((s.drop 1).dropLast) else s

/-! ### Facts about `unquote` -/

theorem fullyWrapped_wrap (q : Char) (v : List Char)
    (hq : isQuoteChar q = true) (hv : hasUnescaped q v = false) :
    fullyWrapped (q :: (v ++ [q])) = true := by
  have hlast : (v ++ [q]).getLast? = some q := List.getLast?_concat v
  have hdrop : (v ++ [q]).dropLast = v := List.dropLast_concat
  have hne : (v ++ [q]).isEmpty = false := by
    cases v <;> simp [List.isEmpty]
  simp [fullyWrapped, hq, hlast, hdrop, hv, hne]

theorem unquote_wrapped (q : Char) (v : List Char)
    (hq : isQuoteChar q = true) (hv : hasUnescaped q v = false) :
    unquote (q :: (v ++ [q])) = resolveEscapes v := by
  have hw := fullyWrapped_wrap q v hq hv
  have hdrop : ((q :: (v ++ [q])).drop 1).dropLast = v := by
    simp only [List.drop_succ_cons, List.drop_zero]
    exact List.dropLast_concat
  rw [unquote, if_pos hw, hdrop]

theorem fullyWrapped_decomp (s : List Char) (h : fullyWrapped s = true) :
    ∃ q v, s = q :: (v ++ [q]) ∧ isQuoteChar q = true ∧
      hasUnescaped q v = false := by
  match s with
  | [] => simp [fullyWrapped] at h
  | c :: rest =>
    simp only [fullyWrapped, Bool.and_eq_true, Bool.not_eq_true',
      beq_iff_eq] at h
    obtain ⟨⟨⟨hq, hne⟩, hlast⟩, hun⟩ := h
    have hrne : rest ≠ [] := by
      intro hcon
      subst hcon
      simp [List.isEmpty] at hne
    refine ⟨c, rest.dropLast, ?_, hq, hun⟩
    have := List.dropLast_append_getLast hrne
    have hgl : rest.getLast hrne = c := by
      have := List.getLast?_eq_getLast rest hrne
      rw [this] at hlast
      exact Option.some_injective _ hlast
    rw [← hgl]
    rw [this]

/-- Claim C2: For every raw string fully wrapped by one matching pair of
single quotes, double quotes or backticks (first and last characters
equal to the quote character, no unescaped occurrence of it strictly
inside), `unquote` returns the interior with every backslash escape
`\X` reduced to the literal `X`; for every string that is not of that
shape, `unquote` is the identity function, so backslashes outside a
full wrap are not interpreted. -/
theorem c2_unquote_characterization :
    (∀ q v, isQuoteChar q = true → hasUnescaped q v = false →
      unquote (q :: (v ++ [q])) = resolveEscapes v) ∧
    (∀ s : List Char,
      (¬ ∃ q v, s = q :: (v ++ [q]) ∧ isQuoteChar q = true ∧
        hasUnescaped q v = false) →
      unquote s = s) := by
  constructor
  · intro q v hq hv
    exact unquote_wrapped q v hq hv
  · intro s hnone
    rw [unquote]
    cases hfw : fullyWrapped s with
    | false => simp
    | true => exact absurd (fullyWrapped_decomp s hfw) hnone

/-- Closed witness for C2: evaluates both sides of the theorem on
concrete inputs (a wrapped string with an escaped quote, and a
non-wrapped string containing backslashes). -/
theorem c2_unquote_characterization_witness :
    unquote ('\'' :: ("it\\'s".data ++ ['\''])) = "it's".data ∧
    unquote ("a\\'b".data) = "a\\'b".data := by
  constructor
  · exact (c2_unquote_characterization.1 '\'' "it\\'s".data
      (by decide) (by decide)).trans (by decide)
  · refine c2_unquote_characterization.2 ("a\\'b".data) ?_
    rintro ⟨q, v, hs, hq, hv⟩
    have hfw : fullyWrapped ("a\\'b".data) = true := by
      rw [hs]
      exact fullyWrapped_wrap q v hq hv
    exact absurd hfw (by decide)

/-! ## Value splitter (spec §4.2, Contract B)

Modelled from the spec: the function `split` of the value tokenizer is
not part of the sources under scrutiny (only its tests are).  The scan
walks left to right tracking the currently open quote span (a backslash
escapes the character after it), splits on occurrences of the delimiter
that are not inside an open span, and then trims each segment, strips a
single full quote wrap inside it, and drops segments that end up empty.
When `unwrapFull` is true and the whole (trimmed) raw string is fully
wrapped, the outer wrap is stripped and escapes resolved once before
splitting. -/

/-- Prepend a character to the first segment of a split result. -/
def consHead (c : Char) : List (List Char) → List (List Char)
  | [] => [[c]]
  | s :: ss => (c :: s) :: ss

/-- Scanner state of the quote-aware scan: the quote character of the
currently open span (if any), and whether the previous character was an
active backslash (so the current character is escaped). -/
abbrev ScanSt : Type := Option Char × Bool

/-- One step of the quote-aware scan on a single character. -/
def scanStep (st : ScanSt) (c : Char) : ScanSt :=
  match st with
  | (q?, true) => (q?, false)
  | (q?, false) =>
    if c == '\\' then (q?, true)
    else
      match q? with
      | some q => if c == q then (none, false) else (some q, false)
      | none => if isQuoteChar c then (some c, false) else (none, false)

/-- The scanner state left behind by scanning a whole string. -/
def scanSt (st : ScanSt) : List Char → ScanSt
  | [] => st
  | c :: rest => scanSt (scanStep st c) rest

/-- Modelled from the spec: the quote-aware top-level scan of Contract
B.  Splits on occurrences of the delimiter `d` that are seen with no
open quote span and not under a backslash escape; every other character
is kept in the current segment. -/
def splitTop (d : Char) (st : ScanSt) : List Char → List (List Char)
  | [] => [[]]
  | c :: rest =>
    if st == (none, false) && c == d && !(c == '\\') && !isQuoteChar c then
      [] :: splitTop d (scanStep st c) rest
    else
      consHead c (splitTop d (scanStep st c) rest)

/-- Per-segment post-processing of Contract B: trim the segment, strip
a single full quote wrap, and trim the unwrapped interior. -/
def processSegment (seg : List Char) : List Char :=
  trim (unquote (trim seg))

/-- Modelled from the spec: `split` (Contract B of the value
tokenizer). -/
def splitValue (raw : List Char) (d : Char) (unwrapFull : Bool) :
    List (List Char) :=
  let t := trim raw
  let core :=
    if unwrapFull && fullyWrapped t then resolveEscapes ((t.drop 1).dropLast)
    else raw
  ((splitTop d (none, false) core).map processSegment).filter
    (fun seg => !seg.isEmpty)

/-! ### Facts about trimming -/

theorem dropWhile_idem (p : Char → Bool) (l : List Char) :
    (l.dropWhile p).dropWhile p = l.dropWhile p := by
  induction l with
  | nil => rfl
  | cons c rest ih =>
    by_cases hc : p c
    · simp [List.dropWhile_cons, hc, ih]
    · simp [List.dropWhile_cons, hc]

theorem dropWhile_suffix (p : Char → Bool) (l : List Char) :
    l.dropWhile p <:+ l := by
  induction l with
  | nil => exact List.suffix_refl _
  | cons c rest ih =>
    by_cases hc : p c
    · simp only [List.dropWhile_cons, hc, if_true]
      exact ih.trans (List.suffix_cons c rest)
    · have hc' : p c = false := by simpa using hc
      simp only [List.dropWhile_cons, hc', Bool.false_eq_true, if_false]
      exact List.suffix_refl _

theorem trimLeft_idem (s : List Char) : trimLeft (trimLeft s) = trimLeft s :=
  dropWhile_idem isWS s

theorem trimRight_idem (s : List Char) :
    trimRight (trimRight s) = trimRight s := by
  simp only [trimRight, trimLeft, List.reverse_reverse]
  rw [dropWhile_idem]

theorem trimLeft_fix_of_prefix {t u : List Char} (hu : trimLeft u = u)
    (hp : t <+: u) : trimLeft t = t := by
  cases t with
  | nil => rfl
  | cons c t' =>
    obtain ⟨r, hr⟩ := hp
    have hc : isWS c = false := by
      by_contra hcon
      have hws : isWS c = true := by
        cases h : isWS c
        · exact absurd h hcon
        · rfl
      have heq : trimLeft u = trimLeft (t' ++ r) := by
        rw [← hr]
        simp [trimLeft, List.dropWhile_cons, hws]
      have he : u = trimLeft (t' ++ r) := by rw [← heq, hu]
      have hle : (trimLeft (t' ++ r)).length ≤ (t' ++ r).length := by
        simpa [trimLeft] using (dropWhile_suffix isWS (t' ++ r)).length_le
      have hlu : u.length = (t' ++ r).length + 1 := by
        rw [← hr]
        simp
      rw [he] at hlu
      omega
    simp [trimLeft, List.dropWhile_cons, hc]

theorem trim_idem (s : List Char) : trim (trim s) = trim s := by
  simp only [trim]
  have h1 : trimLeft (trimLeft s) = trimLeft s := trimLeft_idem s
  have h2 : trimLeft (trimRight (trimLeft s)) = trimRight (trimLeft s) := by
    refine trimLeft_fix_of_prefix h1 ?_
    have hsuf : (trimRight (trimLeft s)).reverse <:+ (trimLeft s).reverse := by
      simp only [trimRight, trimLeft, List.reverse_reverse]
      exact dropWhile_suffix isWS (List.dropWhile isWS s).reverse
    exact List.reverse_suffix.mp hsuf
  rw [h2, trimRight_idem]

theorem trim_of_all_ws {s : List Char} (h : s.all isWS = true) :
    trim s = [] := by
  have h1 : trimLeft s = [] := by
    simp only [trimLeft]
    rw [List.dropWhile_eq_nil_iff]
    intro x hx
    exact List.all_eq_true.mp h x hx
  rw [trim, h1]
  rfl

/-! ### Facts about `splitTop` -/

theorem consHead_ne_nil (c : Char) (L : List (List Char)) :
    consHead c L ≠ [] := by
  cases L <;> simp [consHead]

theorem splitTop_ne_nil (d : Char) (st : ScanSt) (s : List Char) :
    splitTop d st s ≠ [] := by
  cases s with
  | nil => simp [splitTop]
  | cons c rest =>
    rw [splitTop]
    split
    · exact List.cons_ne_nil _ _
    · exact consHead_ne_nil _ _

theorem consHead_append (c : Char) (L M : List (List Char)) (h : L ≠ []) :
    consHead c (L ++ M) = consHead c L ++ M := by
  cases L with
  | nil => exact absurd rfl h
  | cons t ts => simp [consHead]

/-- Splitting distributes over a delimiter occurrence that is reached
with no open quote span and no pending escape. -/
theorem splitTop_append (d : Char) (b : List Char) (hd1 : (d == '\\') = false)
    (hd2 : isQuoteChar d = false) :
    ∀ (a : List Char) (st : ScanSt), scanSt st a = (none, false) →
      splitTop d st (a ++ d :: b) =
        splitTop d st a ++ splitTop d (none, false) b := by
  intro a
  induction a with
  | nil =>
    intro st hst
    simp only [scanSt] at hst
    subst hst
    have hstep : scanStep (none, false) d = (none, false) := by
      simp [scanStep, hd1, hd2]
    simp [splitTop, hd1, hd2, hstep]
  | cons c a' ih =>
    intro st hst
    have hst' : scanSt (scanStep st c) a' = (none, false) := hst
    have hrec := ih (scanStep st c) hst'
    by_cases hsp :
        (st == ((none : Option Char), false) && c == d && !(c == '\\') &&
          !isQuoteChar c) = true
    · simp [List.cons_append, splitTop, hsp, hrec]
    · have hsp' :
          (st == ((none : Option Char), false) && c == d && !(c == '\\') &&
            !isQuoteChar c) = false := by
        cases h : (st == ((none : Option Char), false) && c == d &&
            !(c == '\\') && !isQuoteChar c)
        · rfl
        · exact absurd h hsp
      simp [List.cons_append, splitTop, hsp', hrec,
        consHead_append _ _ _ (splitTop_ne_nil d (scanStep st c) a')]

/-- Every character of every segment produced by `splitTop` is a
character of the input. -/
theorem splitTop_chars (d : Char) :
    ∀ (s : List Char) (st : ScanSt), ∀ seg ∈ splitTop d st s,
      ∀ x ∈ seg, x ∈ s := by
  intro s
  induction s with
  | nil =>
    intro st seg hseg x hx
    simp [splitTop] at hseg
    subst hseg
    simp at hx
  | cons c rest ih =>
    intro st seg hseg x hx
    rw [splitTop] at hseg
    split at hseg
    · rcases List.mem_cons.mp hseg with h | h
      · subst h
        simp at hx
      · exact List.mem_cons_of_mem _ (ih (scanStep st c) seg h x hx)
    · rcases hL : splitTop d (scanStep st c) rest with _ | ⟨t, ts⟩
      · exact absurd hL (splitTop_ne_nil d (scanStep st c) rest)
      · rw [hL] at hseg
        simp only [consHead] at hseg
        rcases List.mem_cons.mp hseg with h | h
        · subst h
          rcases List.mem_cons.mp hx with h | h
          · exact h ▸ List.mem_cons_self c rest
          · refine List.mem_cons_of_mem _ ?_
            refine ih (scanStep st c) t ?_ x h
            rw [hL]
            exact List.mem_cons_self t ts
        · refine List.mem_cons_of_mem _ ?_
          refine ih (scanStep st c) seg ?_ x hx
          rw [hL]
          exact List.mem_cons_of_mem t h

/-- Claim C3: The splitter returns an empty sequence on the empty string
and on all-whitespace strings, and on the empty backtick pair when
`unwrapFull` is true; every produced segment is trimmed of surrounding
whitespace (a fixpoint of `trim`) and non-empty; and splitting
distributes over any delimiter occurrence reached by the left-to-right
scan with no open quote span (so the split happens exactly at the
delimiter occurrences outside quote spans). -/
theorem c3_split_characterization (d : Char) :
    (∀ uw, splitValue [] d uw = []) ∧
    (∀ s uw, s.all isWS = true → splitValue s d uw = []) ∧
    splitValue ("``".data) d true = [] ∧
    (∀ raw uw, ∀ seg ∈ splitValue raw d uw, trim seg = seg ∧ seg ≠ []) ∧
    (∀ a b, (d == '\\') = false → isQuoteChar d = false →
      scanSt (none, false) a = (none, false) →
      splitValue (a ++ d :: b) d false =
        splitValue a d false ++ splitValue b d false) := by
  refine ⟨?_, ?_, ?_, ?_, ?_⟩
  · intro uw
    cases uw <;> rfl
  · intro s uw hws
    have htrim : trim s = [] := trim_of_all_ws hws
    have hseg : ∀ seg ∈ splitTop d (none, false) s,
        processSegment seg = [] := by
      intro seg hseg
      have hall : seg.all isWS = true := by
        rw [List.all_eq_true]
        intro x hx
        exact List.all_eq_true.mp hws x
          (splitTop_chars d s (none, false) seg hseg x hx)
      have htr : trim seg = [] := trim_of_all_ws hall
      rw [processSegment, htr]
      rfl
    rw [splitValue]
    simp only [htrim]
    have hcore : (if uw && fullyWrapped [] then
        resolveEscapes (([] : List Char).drop 1).dropLast else s) = s := by
      have : fullyWrapped [] = false := rfl
      simp [this]
    rw [hcore]
    rw [List.filter_eq_nil_iff]
    intro seg hmem
    obtain ⟨t, ht, rfl⟩ := List.mem_map.mp hmem
    rw [hseg t ht]
    simp
  · rfl
  · intro raw uw seg hseg
    simp only [splitValue, List.mem_filter, List.mem_map] at hseg
    obtain ⟨⟨t, _, rfl⟩, hne⟩ := hseg
    refine ⟨trim_idem _, ?_⟩
    simpa using hne
  · intro a b hd1 hd2 hscan
    simp only [splitValue, Bool.false_and, if_false, Bool.false_eq_true]
    rw [splitTop_append d b hd1 hd2 a (none, false) hscan]
    rw [List.map_append, List.filter_append]

/-- Closed witness for C3: instantiates the theorem at a concrete
delimiter, concrete whitespace input and a concrete top-level split. -/
theorem c3_split_characterization_witness :
    splitValue ("   ".data) ',' false = [] ∧
    splitValue ("ab".data ++ ',' :: " c ".data) ',' false =
      splitValue ("ab".data) ',' false ++ splitValue (" c ".data) ',' false := by
  constructor
  · exact (c3_split_characterization ',').2.1 ("   ".data) false (by decide)
  · exact (c3_split_characterization ',').2.2.2.2 ("ab".data) (" c ".data)
      (by decide) (by decide) (by decide)

/-! ## Line grammar (spec §4.1)

Modelled from the spec: the function `parseLine` of the grammar
tokenizer is not part of the sources under scrutiny (only its tests
are).  A physical line is trimmed of leading whitespace and classified
as blank, comment, section header, key-only or key-value; the key/value
scan looks for the first unquoted `=` and the first unquoted comment
marker using the same quote-span and escape discipline as the value
tokenizer; quoted or backslash-containing keys, unterminated quote
spans, unmatched `[`, non-comment text after `]` and a trailing
unescaped backslash are grammar errors. -/

inductive LineType where
  | blank
  | comment
  | sectionHeader
  | keyOnly
  | keyValue
deriving DecidableEq, Repr

structure ParsedLine where
  sectionName : List Char
  key : List Char
  value : List Char
  comment : List Char
  kind : LineType
  isLoose : Bool
deriving DecidableEq, Repr

inductive GrammarErr where
  | unclosedBracket
  | textAfterHeader
  | badKey
  | unterminatedQuote
  | trailingBackslash
deriving DecidableEq, Repr

/-- Whether an `Except` result is an error. -/
def isError : Except ε α → Bool
  | .error _ => true
  | .ok _ => false

instance instDecEqExcept {ε α : Type} [DecidableEq ε] [DecidableEq α] :
    DecidableEq (Except ε α)
  | .error e, .error f =>
    if h : e = f then .isTrue (by rw [h])
    else .isFalse (fun hc => h (by injection hc))
  | .error _, .ok _ => .isFalse (fun hc => Except.noConfusion hc)
  | .ok _, .error _ => .isFalse (fun hc => Except.noConfusion hc)
  | .ok a, .ok b =>
    if h : a = b then .isTrue (by rw [h])
    else .isFalse (fun hc => h (by injection hc))

/-- Scan for the first occurrence of one of `targets` that is outside
any quote span and not escaped; fails when the scan ends inside a quote
span or right after an unescaped backslash. -/
def scanFor (targets : List Char) : ScanSt → List Char →
    Except GrammarErr (List Char × Option (Char × List Char))
  | (_, true), [] => .error .trailingBackslash
  | (some _, false), [] => .error .unterminatedQuote
  | (none, false), [] => .ok ([], none)
  | st, c :: rest =>
    if st == ((none : Option Char), false) && targets.contains c then
      .ok ([], some (c, rest))
    else
      match scanFor targets (scanStep st c) rest with
      | .error e => .error e
      | .ok (pre, found) => .ok (c :: pre, found)

/-- Split at the first occurrence of the character `t`. -/
def splitAtChar (t : Char) : List Char → Option (List Char × List Char)
  | [] => none
  | c :: rest =>
    if c == t then some ([], rest)
    else (splitAtChar t rest).map (fun p => (c :: p.1, p.2))

/-- A key must be a bare token: no quote characters and no backslash. -/
def keyIsBare (k : List Char) : Bool :=
  !(k.any (fun c => isQuoteChar c || c == '\\'))

/-- Strip a `loose-` / `loose_` marker from a key. -/
def stripLoose (k : List Char) : List Char × Bool :=
  if List.isPrefixOf ("loose-".data) k || List.isPrefixOf ("loose_".data) k then
    (k.drop 6, true)
  else (k, false)

/-- Build a key-only token after validating the key. -/
def mkKeyOnly (pre comment : List Char) : Except GrammarErr ParsedLine :=
  let key0 := trim pre
  if keyIsBare key0 then
    let kl := stripLoose key0
    .ok ⟨[], kl.1, [], comment, .keyOnly, kl.2⟩
  else .error .badKey

/-- Build a key-value token after validating the key. -/
def mkKeyValue (pre value comment : List Char) :
    Except GrammarErr ParsedLine :=
  let key0 := trim pre
  if keyIsBare key0 then
    let kl := stripLoose key0
    .ok ⟨[], kl.1, value, comment, .keyValue, kl.2⟩
  else .error .badKey

/-- Parse the remainder of a section-header line (after `[`). -/
def parseSectionHeader (rest : List Char) : Except GrammarErr ParsedLine :=
  match splitAtChar ']' rest with
  | none => .error .unclosedBracket
  | some (name, after) =>
    match trimLeft after with
    | [] => .ok ⟨name, [], [], [], .sectionHeader, false⟩
    | m :: tail =>
      if m == '#' || m == ';' then
        .ok ⟨name, [], [], tail, .sectionHeader, false⟩
      else .error .textAfterHeader

/-- Parse a key-only or key-value line. -/
def parseKV (l : List Char) : Except GrammarErr ParsedLine :=
  match scanFor ['=', '#', ';'] (none, false) l with
  | .error e => .error e
  | .ok (pre, none) => mkKeyOnly pre []
  | .ok (pre, some (m, after)) =>
    if m == '=' then
      match scanFor ['#', ';'] (none, false) after with
      | .error e => .error e
      | .ok (vpre, vfound) =>
        let comment := match vfound with
          | none => ([] : List Char)
          | some vc => vc.2
        mkKeyValue pre (trim vpre) comment
    else
      mkKeyOnly pre after

/-- Modelled from the spec: `parseLine`, the grammar tokenizer for one
physical line of an option file (spec §4.1). -/
def parseLine (line : List Char) : Except GrammarErr ParsedLine :=
  match trimLeft line with
  | [] => .ok ⟨[], [], [], [], .blank, false⟩
  | c :: rest =>
    if c == ';' || c == '#' then
      .ok ⟨[], [], [], rest, .comment, false⟩
    else if c == '[' then
      parseSectionHeader rest
    else
      parseKV (c :: rest)

/-- Claim C5: the function `parseLine` returns a grammar error (not any token) for a
section-header line without its closing bracket, for a line whose key
is wrapped in quotes, and for a line ending in a trailing unescaped
backslash. -/
theorem c5_parse_line_grammar_errors :
    isError (parseLine ("[section".data)) = true ∧
    isError (parseLine ("\"key\"=\"value\"".data)) = true ∧
    isError (parseLine ("foo=bar\\".data)) = true := by
  decide

/-! ## Option metadata and command model

The option descriptor and its constructors are not part of the sources
under scrutiny (only their uses are); they are modelled from the spec's
data model (§3): name, semantic type (string or boolean), value-required
flag and default value, immutable once registered.  A `Command` is
modelled by the result of its recursively merged `Options()` map
(sub-command entries already override parent entries) together with its
positional args. -/

inductive OptionType where
  | str
  | bool
deriving DecidableEq, Repr

structure Opt where
  name : String
  typ : OptionType
  requireValue : Bool
  dflt : String
deriving DecidableEq, Repr

/-- Modelled from the spec: a string option requires a value unless
marked value-optional. -/
def StringOption (name : String) (dflt : String) : Opt :=
  ⟨name, .str, true, dflt⟩

/-- Modelled from the spec: mark an option's value as optional. -/
def valueOptional (o : Opt) : Opt :=
  { o with requireValue := false }

/-- Modelled from the spec: a boolean option never requires a value. -/
def BoolOption (name : String) (dflt : Bool) : Opt :=
  ⟨name, .bool, false, if dflt then ("1") else ("")⟩

/-- A command: the merged name-to-descriptor map returned by
`Command.Options()`, and the positional args added by `AddArg`. -/
structure Command where
  options : List (String × Opt)
  args : List Opt

/-- The model of `Command.OptionValue` (src/command.go): the default value of a
known option, absence otherwise; this is the lowest-priority source. -/
def Command.optionValue (cmd : Command) (name : String) : Option String :=
  (cmd.options.lookup name).map Opt.dflt

/-- The parsed command line (`CommandLine` in src): the executing
command, the named option values parsed from the command line, and the
positional arg values. -/
structure Command.Line where
  command : Command
  optionValues : List (String × String)
  argValues : List String

/-- Lookup in a flat string map (the `OptionValue` of the command line
and of a simple map source). -/
def lookupStr (m : List (String × String)) (k : String) : Option String :=
  m.lookup k

/-- The model of `Config` (src/command.go): the command line plus caller-added
sources in add order (higher indexes override lower indexes). -/
structure Config where
  cli : Command.Line
  sources : List (String → Option String)

/-- Which source won an option, for the source-attribution queries:
the command (defaults), the i-th caller-added source, the command line,
or the transient runtime-override map. -/
inductive SourceRef where
  | defaults
  | added (i : Nat)
  | cli
  | runtimeOverride
deriving DecidableEq, Repr

/-- The candidate source order built by `Config.rebuild`: the command's
defaults first (lowest priority), then the caller-added sources in add
order, then the command line; the transient runtime overrides (their
code is not under scrutiny; modelled from the spec) come last, strictly
highest. -/
def allSources (cfg : Config) (overrides : List (String × String)) :
    List (SourceRef × (String → Option String)) :=
  ((SourceRef.defaults, cfg.cli.command.optionValue) ::
      cfg.sources.enum.map (fun p => (SourceRef.added p.1, p.2))) ++
    [(SourceRef.cli, lookupStr cfg.cli.optionValues),
     (SourceRef.runtimeOverride, lookupStr overrides)]

/-- The inner loop of `Config.rebuild`: scan the sources from highest
to lowest priority and take the first that reports presence. -/
def findFromHighest (srcs : List (SourceRef × (String → Option String)))
    (name : String) : Option (String × SourceRef) :=
  match srcs with
  | [] => none
  | (r, f) :: rest =>
    match findFromHighest rest name with
    | some res => some res
    | none => (f name).map (fun v => (v, r))

/-- The per-option value and source caches built by `rebuild`
(`unifiedValues` / `unifiedSources`). -/
structure Unified where
  values : List (String × String)
  sources : List (String × SourceRef)

/-- One iteration of the positional-arg loop of `Config.rebuild`
(src/command.go): record the CLI as the arg's source; a supplied arg
takes the CLI value and shadows (deletes) any like-named option, an
unsupplied one contributes its default and deletes nothing. -/
def argStep (cfg : Config) (acc : Unified × List (String × Opt))
    (pa : Nat × Opt) : Unified × List (String × Opt) :=
  let u := acc.1
  let opts := acc.2
  let u1 : Unified :=
    { u with sources := (pa.2.name, SourceRef.cli) :: u.sources }
  match cfg.cli.argValues.get? pa.1 with
  | some v =>
    ({ u1 with values := (pa.2.name, v) :: u1.values },
     opts.filter (fun p => p.1 ≠ pa.2.name))
  | none =>
    ({ u1 with values := (pa.2.name, pa.2.dflt) :: u1.values }, opts)

/-- The positional-arg loop of `Config.rebuild`. -/
def argsLoop (cfg : Config) : Unified × List (String × Opt) :=
  (cfg.cli.command.args.enum).foldl (argStep cfg)
    (⟨[], []⟩, cfg.cli.command.options)

/-- One iteration of the named-option loop of `Config.rebuild`:
resolve via the highest-to-lowest scan; `none` models the assertion
panic when not even the command provides a value. -/
def optStep (srcs : List (SourceRef × (String → Option String)))
    (u : Unified) (p : String × Opt) : Option Unified :=
  (findFromHighest srcs p.1).map
    (fun vr => ⟨(p.1, vr.1) :: u.values, (p.1, vr.2) :: u.sources⟩)

/-- The model of `Config.rebuild` (src/command.go): the positional-arg tier first,
then every remaining known option resolved against the candidate
sources. -/
def Config.rebuild (cfg : Config) (overrides : List (String × String)) :
    Option Unified :=
  let st := argsLoop cfg
  List.foldlM (optStep (allSources cfg overrides)) st.1 st.2

/-- The resolved value of an option (`Config.Get`); `none` models the
panic on an unknown option. -/
def Config.unifiedValue (cfg : Config) (overrides : List (String × String))
    (name : String) : Option String :=
  (cfg.rebuild overrides).bind (fun u => u.values.lookup name)

/-- The winning source of an option; `none` models the panic on an
unknown option. -/
def Config.unifiedSource (cfg : Config) (overrides : List (String × String))
    (name : String) : Option SourceRef :=
  (cfg.rebuild overrides).bind (fun u => u.sources.lookup name)

/-- The model of `Config.Changed` (src/command.go): false exactly when the winning
source is the `*Command` (the defaults source); `none` models the
panic on an unknown option. -/
def Config.changed? (cfg : Config) (overrides : List (String × String))
    (name : String) : Option Bool :=
  (cfg.unifiedSource overrides name).map
    (fun r => match r with
      | SourceRef.defaults => false
      | _ => true)

/-- The model of `Config.OnCLI` (src/command.go): true exactly when the winning
source is the command line. -/
def Config.onCLI? (cfg : Config) (overrides : List (String × String))
    (name : String) : Option Bool :=
  (cfg.unifiedSource overrides name).map
    (fun r => match r with
      | SourceRef.cli => true
      | _ => false)

/-! ### Association-list facts -/

theorem lookup_cons_self {β : Type} (k : String) (v : β)
    (l : List (String × β)) : ((k, v) :: l).lookup k = some v := by
  simp [List.lookup]

theorem lookup_cons_ne {β : Type} (k k' : String) (v : β)
    (l : List (String × β)) (h : k' ≠ k) :
    ((k, v) :: l).lookup k' = l.lookup k' := by
  simp [List.lookup, beq_eq_false_iff_ne.mpr h]

theorem lookup_filter_ne {β : Type} (l : List (String × β)) (n k : String)
    (h : n ≠ k) :
    (l.filter (fun p => p.1 ≠ k)).lookup n = l.lookup n := by
  induction l with
  | nil => rfl
  | cons p rest ih =>
    by_cases hp : p.1 = k
    · have hfilter : (p :: rest).filter (fun p => p.1 ≠ k) =
          rest.filter (fun p => p.1 ≠ k) := by
        simp [List.filter_cons, hp]
      rw [hfilter, ih]
      obtain ⟨p1, p2⟩ := p
      simp only at hp
      rw [lookup_cons_ne p1 n p2 rest (hp ▸ h)]
    · have hfilter : (p :: rest).filter (fun p => p.1 ≠ k) =
          p :: rest.filter (fun p => p.1 ≠ k) := by
        simp [List.filter_cons, hp]
      rw [hfilter]
      obtain ⟨p1, p2⟩ := p
      by_cases hn : n = p1
      · subst hn
        rw [lookup_cons_self, lookup_cons_self]
      · rw [lookup_cons_ne p1 n p2 _ hn, lookup_cons_ne p1 n p2 rest hn, ih]

theorem lookup_filter_self {β : Type} (l : List (String × β)) (k : String) :
    (l.filter (fun p => p.1 ≠ k)).lookup k = none := by
  induction l with
  | nil => rfl
  | cons p rest ih =>
    by_cases hp : p.1 = k
    · simpa [List.filter_cons, hp] using ih
    · obtain ⟨p1, p2⟩ := p
      simp only at hp
      have : ((p1, p2) :: rest).filter (fun p => p.1 ≠ k) =
          (p1, p2) :: rest.filter (fun p => p.1 ≠ k) := by
        simp [List.filter_cons, hp]
      rw [this, lookup_cons_ne p1 k p2 _ (fun hc => hp hc.symm), ih]

theorem lookup_isSome_iff_mem_keys {β : Type} (l : List (String × β))
    (k : String) : (l.lookup k).isSome = true ↔ k ∈ l.map Prod.fst := by
  induction l with
  | nil => simp [List.lookup]
  | cons p rest ih =>
    obtain ⟨p1, p2⟩ := p
    by_cases hk : k = p1
    · subst hk
      simp [lookup_cons_self]
    · rw [lookup_cons_ne p1 k p2 rest hk]
      simp [hk, ih]

theorem lookup_isSome_of_mem {β : Type} (l : List (String × β))
    (p : String × β) (hp : p ∈ l) : (l.lookup p.1).isSome = true := by
  rw [lookup_isSome_iff_mem_keys]
  exact List.mem_map_of_mem Prod.fst hp

/-! ### Facts about the highest-to-lowest source scan -/

theorem findFromHighest_eq_none
    (srcs : List (SourceRef × (String → Option String))) (name : String) :
    findFromHighest srcs name = none ↔ ∀ rf ∈ srcs, rf.2 name = none := by
  induction srcs with
  | nil => simp [findFromHighest]
  | cons rf rest ih =>
    obtain ⟨r, f⟩ := rf
    rw [findFromHighest]
    constructor
    · intro h
      cases hrest : findFromHighest rest name with
      | some res => rw [hrest] at h; exact absurd h (by simp)
      | none =>
        rw [hrest] at h
        intro rf' hrf'
        rcases List.mem_cons.mp hrf' with hh | hh
        · subst hh
          cases hf : f name with
          | none => exact hf
          | some v => rw [hf] at h; exact absurd h (by simp)
        · exact (ih.mp hrest) rf' hh
    · intro h
      have hrest : findFromHighest rest name = none :=
        ih.mpr (fun rf' hrf' => h rf' (List.mem_cons_of_mem _ hrf'))
      rw [hrest]
      have hf : f name = none := h (r, f) (List.mem_cons_self _ _)
      simp [hf]

theorem findFromHighest_isSome_of_mem
    (srcs : List (SourceRef × (String → Option String))) (name : String)
    (rf : SourceRef × (String → Option String)) (hmem : rf ∈ srcs)
    (hsome : (rf.2 name).isSome = true) :
    (findFromHighest srcs name).isSome = true := by
  cases h : findFromHighest srcs name with
  | some res => rfl
  | none =>
    have := (findFromHighest_eq_none srcs name).mp h rf hmem
    rw [this] at hsome
    exact absurd hsome (by simp)

theorem findFromHighest_some_spec
    (srcs : List (SourceRef × (String → Option String))) (name : String)
    (v : String) (r : SourceRef)
    (h : findFromHighest srcs name = some (v, r)) :
    ∃ i, ∃ hi : i < srcs.length,
      (srcs.get ⟨i, hi⟩).1 = r ∧ (srcs.get ⟨i, hi⟩).2 name = some v ∧
      ∀ j, ∀ hj : j < srcs.length, i < j →
        (srcs.get ⟨j, hj⟩).2 name = none := by
  induction srcs with
  | nil => exact absurd h (by simp [findFromHighest])
  | cons rf rest ih =>
    obtain ⟨r0, f0⟩ := rf
    rw [findFromHighest] at h
    cases hrest : findFromHighest rest name with
    | some res =>
      rw [hrest] at h
      have hres : res = (v, r) := by
        injection h with h'
      subst hres
      obtain ⟨i, hi, h1, h2, h3⟩ := ih hrest
      refine ⟨i + 1, by simpa using Nat.succ_lt_succ hi, ?_, ?_, ?_⟩
      · simpa using h1
      · simpa using h2
      · intro j hj hij
        match j, hj with
        | j' + 1, hj =>
          have hj' : j' < rest.length := by simpa using hj
          have := h3 j' hj' (Nat.lt_of_succ_lt_succ hij)
          simpa using this
    | none =>
      rw [hrest] at h
      cases hf : f0 name with
      | none => rw [hf] at h; exact absurd h (by simp)
      | some v0 =>
        rw [hf] at h
        have hv : v0 = v ∧ r0 = r := by
          simp only [Option.map_some] at h
          injection h with h'
          exact ⟨congrArg Prod.fst h', congrArg Prod.snd h'⟩
        refine ⟨0, by simp, by simpa using hv.2, by simpa [hf] using hv.1, ?_⟩
        intro j hj hij
        match j, hj with
        | j' + 1, hj =>
          have hj' : j' < rest.length := by simpa using hj
          have := (findFromHighest_eq_none rest name).mp hrest
            (rest.get ⟨j', hj'⟩) (rest.get_mem _ _)
          simpa using this

/-! ### Facts about the positional-arg loop -/

theorem argsFold_untouched (cfg : Config) (name : String) :
    ∀ (L : List (Nat × Opt)) (acc : Unified × List (String × Opt)),
      (∀ pa ∈ L, pa.2.name ≠ name) →
      (L.foldl (argStep cfg) acc).1.values.lookup name =
        acc.1.values.lookup name ∧
      (L.foldl (argStep cfg) acc).1.sources.lookup name =
        acc.1.sources.lookup name ∧
      (L.foldl (argStep cfg) acc).2.lookup name = acc.2.lookup name := by
  intro L
  induction L with
  | nil => exact fun acc _ => ⟨rfl, rfl, rfl⟩
  | cons pa L' ih =>
    intro acc hL
    have hname : pa.2.name ≠ name := hL pa (List.mem_cons_self _ _)
    have hL' : ∀ q ∈ L', q.2.name ≠ name :=
      fun q hq => hL q (List.mem_cons_of_mem _ hq)
    rw [List.foldl_cons]
    obtain ⟨h1, h2, h3⟩ := ih (argStep cfg acc pa) hL'
    refine ⟨?_, ?_, ?_⟩
    · rw [h1, argStep]
      cases cfg.cli.argValues.get? pa.1 with
      | some v => exact lookup_cons_ne _ _ _ _ (fun hc => hname hc.symm)
      | none => exact lookup_cons_ne _ _ _ _ (fun hc => hname hc.symm)
    · rw [h2, argStep]
      cases cfg.cli.argValues.get? pa.1 with
      | some v => exact lookup_cons_ne _ _ _ _ (fun hc => hname hc.symm)
      | none => exact lookup_cons_ne _ _ _ _ (fun hc => hname hc.symm)
    · rw [h3, argStep]
      cases cfg.cli.argValues.get? pa.1 with
      | some v =>
        exact lookup_filter_ne _ _ _ (fun hc => hname hc.symm)
      | none => rfl

theorem argsFold_opts_lookup_none (cfg : Config) (name : String) :
    ∀ (L : List (Nat × Opt)) (acc : Unified × List (String × Opt)),
      acc.2.lookup name = none →
      (L.foldl (argStep cfg) acc).2.lookup name = none := by
  intro L
  induction L with
  | nil => exact fun acc h => h
  | cons pa L' ih =>
    intro acc h
    rw [List.foldl_cons]
    refine ih (argStep cfg acc pa) ?_
    rw [argStep]
    cases cfg.cli.argValues.get? pa.1 with
    | some v =>
      by_cases hn : name = pa.2.name
      · subst hn
        exact lookup_filter_self _ _
      · rw [lookup_filter_ne _ _ _ hn]
        exact h
    | none => exact h

/-- The positional-arg loop at the position of one specific arg, for a
command whose arg names are distinct: a supplied arg writes the CLI
value and deletes the like-named option; an unsupplied one writes its
default and deletes nothing. -/
theorem argsFold_at (cfg : Config) :
    ∀ (args : List Opt) (n : Nat) (acc : Unified × List (String × Opt))
      (pos : Nat) (arg : Opt),
      args.get? pos = some arg →
      (args.map Opt.name).Nodup →
      (∀ v, cfg.cli.argValues.get? (n + pos) = some v →
        ((args.enumFrom n).foldl (argStep cfg) acc).1.values.lookup arg.name =
          some v ∧
        ((args.enumFrom n).foldl (argStep cfg) acc).1.sources.lookup arg.name =
          some SourceRef.cli ∧
        ((args.enumFrom n).foldl (argStep cfg) acc).2.lookup arg.name =
          none) ∧
      (cfg.cli.argValues.get? (n + pos) = none →
        ((args.enumFrom n).foldl (argStep cfg) acc).1.values.lookup arg.name =
          some arg.dflt ∧
        ((args.enumFrom n).foldl (argStep cfg) acc).1.sources.lookup arg.name =
          some SourceRef.cli ∧
        ((args.enumFrom n).foldl (argStep cfg) acc).2.lookup arg.name =
          acc.2.lookup arg.name) := by
  intro args
  induction args with
  | nil => intro n acc pos arg hat; exact absurd hat (by simp)
  | cons a rest ih =>
    intro n acc pos arg hat hnodup
    have hnodup' : (rest.map Opt.name).Nodup := by
      simpa using hnodup.of_cons
    have hnotin : a.name ∉ rest.map Opt.name := by
      have := hnodup
      rw [List.map_cons, List.nodup_cons] at this
      exact this.1
    rw [List.enumFrom_cons]
    cases pos with
    | zero =>
      have ha : a = arg := by simpa using hat
      subst ha
      have hothers : ∀ pa ∈ List.enumFrom (n + 1) rest, pa.2.name ≠ a.name := by
        intro pa hpa hc
        obtain ⟨hge, hlt, heq⟩ := List.mem_enumFrom hpa
        have hbound : pa.1 - (n + 1) < rest.length := by omega
        have hmem : pa.2 ∈ rest := by
          rw [heq]
          exact rest.getElem_mem hbound
        exact hnotin (hc ▸ List.mem_map_of_mem Opt.name hmem)
      constructor
      · intro v hv
        rw [List.foldl_cons]
        obtain ⟨h1, h2, h3⟩ :=
          argsFold_untouched cfg a.name _ (argStep cfg acc (n, a)) hothers
        rw [Nat.add_zero] at hv
        refine ⟨?_, ?_, ?_⟩
        · rw [h1, argStep]
          simp only [hv]
          exact lookup_cons_self _ _ _
        · rw [h2, argStep]
          simp only [hv]
          exact lookup_cons_self _ _ _
        · rw [h3, argStep]
          simp only [hv]
          exact lookup_filter_self _ _
      · intro hv
        rw [List.foldl_cons]
        obtain ⟨h1, h2, h3⟩ :=
          argsFold_untouched cfg a.name _ (argStep cfg acc (n, a)) hothers
        rw [Nat.add_zero] at hv
        refine ⟨?_, ?_, ?_⟩
        · rw [h1, argStep]
          simp only [hv]
          exact lookup_cons_self _ _ _
        · rw [h2, argStep]
          simp only [hv]
          exact lookup_cons_self _ _ _
        · rw [h3, argStep]
          simp only [hv]
    | succ k =>
      have hat' : rest.get? k = some arg := by simpa using hat
      have hargname : arg.name ∈ rest.map Opt.name := by
        have : arg ∈ rest := List.get?_mem hat'
        exact List.mem_map_of_mem Opt.name this
      have hne : a.name ≠ arg.name := fun hc => hnotin (hc ▸ hargname)
      rw [List.foldl_cons]
      have hidx : n + 1 + k = n + (k + 1) := by omega
      have := ih (n + 1) (argStep cfg acc (n, a)) k arg hat' hnodup'
      rw [hidx] at this
      obtain ⟨hsup, hunsup⟩ := this
      refine ⟨hsup, ?_⟩
      intro hv
      obtain ⟨h1, h2, h3⟩ := hunsup hv
      refine ⟨h1, h2, ?_⟩
      rw [h3, argStep]
      cases cfg.cli.argValues.get? n with
      | some v => exact lookup_filter_ne _ _ _ (fun hc => hne hc.symm)
      | none => rfl

/-! ### Facts about the named-option loop and `rebuild` -/

theorem argsFold_opts_subset (cfg : Config) :
    ∀ (L : List (Nat × Opt)) (acc : Unified × List (String × Opt)),
      (L.foldl (argStep cfg) acc).2 ⊆ acc.2 := by
  intro L
  induction L with
  | nil => exact fun acc => List.Subset.refl _
  | cons pa L' ih =>
    intro acc
    rw [List.foldl_cons]
    refine (ih (argStep cfg acc pa)).trans ?_
    rw [argStep]
    cases cfg.cli.argValues.get? pa.1 with
    | some v => exact fun x hx => List.mem_of_mem_filter hx
    | none => exact List.Subset.refl _

/-- The named-option loop: it always succeeds when every remaining
option is resolvable, and the final caches hold, for each name, the
result of the highest-to-lowest scan (when the name is among the
iterated options) or the incoming entry (when it is not). -/
theorem optsFold_spec (srcs : List (SourceRef × (String → Option String)))
    (name : String) :
    ∀ (opts : List (String × Opt)) (u0 : Unified),
      (∀ p ∈ opts, (findFromHighest srcs p.1).isSome = true) →
      ∃ u, List.foldlM (optStep srcs) u0 opts = some u ∧
        (name ∈ opts.map Prod.fst →
          u.values.lookup name = (findFromHighest srcs name).map Prod.fst ∧
          u.sources.lookup name = (findFromHighest srcs name).map Prod.snd) ∧
        (name ∉ opts.map Prod.fst →
          u.values.lookup name = u0.values.lookup name ∧
          u.sources.lookup name = u0.sources.lookup name) := by
  intro opts
  induction opts with
  | nil =>
    intro u0 _
    exact ⟨u0, rfl, fun h => absurd h (by simp), fun _ => ⟨rfl, rfl⟩⟩
  | cons p rest ih =>
    intro u0 hres
    have hp : (findFromHighest srcs p.1).isSome = true :=
      hres p (List.mem_cons_self _ _)
    obtain ⟨vr, hvr⟩ := Option.isSome_iff_exists.mp hp
    have hrest : ∀ q ∈ rest, (findFromHighest srcs q.1).isSome = true :=
      fun q hq => hres q (List.mem_cons_of_mem _ hq)
    set u1 : Unified :=
      ⟨(p.1, vr.1) :: u0.values, (p.1, vr.2) :: u0.sources⟩ with hu1
    obtain ⟨u, hfold, hin, hout⟩ := ih u1 hrest
    have hstep : List.foldlM (optStep srcs) u0 (p :: rest) = some u := by
      rw [List.foldlM_cons, optStep, hvr]
      simpa using hfold
    refine ⟨u, hstep, ?_, ?_⟩
    · intro hmem
      by_cases hr : name ∈ rest.map Prod.fst
      · exact hin hr
      · have hnp : name = p.1 := by
          have hmem' : name ∈ p.1 :: rest.map Prod.fst := by
            rw [List.map_cons] at hmem
            exact hmem
          rcases List.mem_cons.mp hmem' with h | h
          · exact h
          · exact absurd h hr
        obtain ⟨h1, h2⟩ := hout hr
        subst hnp
        rw [h1, h2, hu1]
        rw [lookup_cons_self, lookup_cons_self, hvr]
        exact ⟨rfl, rfl⟩
    · intro hmem
      have hnp : name ≠ p.1 := fun hc => hmem (by simp [hc])
      have hr : name ∉ rest.map Prod.fst := fun hc => hmem (by simp [hc])
      obtain ⟨h1, h2⟩ := hout hr
      rw [h1, h2, hu1]
      rw [lookup_cons_ne _ _ _ _ hnp, lookup_cons_ne _ _ _ _ hnp]
      exact ⟨rfl, rfl⟩

/-- Every option remaining after the positional-arg loop is resolvable:
the defaults source (the command itself) provides it. -/
theorem rebuild_resolvable (cfg : Config) (ov : List (String × String)) :
    ∀ p ∈ (argsLoop cfg).2,
      (findFromHighest (allSources cfg ov) p.1).isSome = true := by
  intro p hp
  have hmem : p ∈ cfg.cli.command.options := by
    have := argsFold_opts_subset cfg (cfg.cli.command.args.enum)
      (⟨[], []⟩, cfg.cli.command.options)
    exact this hp
  have hdef : ((SourceRef.defaults,
      cfg.cli.command.optionValue).2 p.1).isSome = true := by
    have := lookup_isSome_of_mem _ _ hmem
    simp only [Command.optionValue]
    obtain ⟨o, ho⟩ := Option.isSome_iff_exists.mp this
    simp [ho]
  refine findFromHighest_isSome_of_mem _ p.1 _ ?_ hdef
  simp [allSources]

/-- Claim C1: For every option known to the active command (and not
shadowed by a positional arg, whose special tier is claim C7),
resolution scans the candidate sources from highest to lowest priority
— runtime overrides above the command line, above caller-added sources
in add order, above the compiled defaults, which is the order built by
`allSources` — and takes the first source that reports presence: the
resolved value and source are those of a source that reports presence
while every higher-priority source reports absence.  `Changed` returns
`false` exactly when the defaults source (the command) won. -/
theorem c1_resolution_precedence (cfg : Config) (ov : List (String × String))
    (name : String)
    (hknown : (cfg.cli.command.options.lookup name).isSome = true)
    (hargs : ∀ a ∈ cfg.cli.command.args, a.name ≠ name) :
    ∃ v r, cfg.unifiedValue ov name = some v ∧
      cfg.unifiedSource ov name = some r ∧
      (∃ i, ∃ hi : i < (allSources cfg ov).length,
        ((allSources cfg ov).get ⟨i, hi⟩).1 = r ∧
        ((allSources cfg ov).get ⟨i, hi⟩).2 name = some v ∧
        ∀ j, ∀ hj : j < (allSources cfg ov).length, i < j →
          ((allSources cfg ov).get ⟨j, hj⟩).2 name = none) ∧
      (cfg.changed? ov name = some false ↔ r = SourceRef.defaults) := by
  have huntouched := argsFold_untouched cfg name (cfg.cli.command.args.enum)
    (⟨[], []⟩, cfg.cli.command.options) (by
      intro pa hpa
      have hpa' : pa ∈ List.enumFrom 0 cfg.cli.command.args := hpa
      obtain ⟨hge, hlt, heq⟩ := List.mem_enumFrom hpa'
      have hbound : pa.1 - 0 < cfg.cli.command.args.length := by omega
      refine hargs pa.2 ?_
      rw [heq]
      exact List.getElem_mem hbound)
  obtain ⟨hv0, hs0, hopts⟩ := huntouched
  have hopts' : (argsLoop cfg).2.lookup name =
      cfg.cli.command.options.lookup name := hopts
  have hmemkeys : name ∈ (argsLoop cfg).2.map Prod.fst := by
    rw [← lookup_isSome_iff_mem_keys, hopts']
    exact hknown
  obtain ⟨u, hfold, hin, _⟩ := optsFold_spec (allSources cfg ov) name
    (argsLoop cfg).2 (argsLoop cfg).1 (rebuild_resolvable cfg ov)
  obtain ⟨hval, hsrc⟩ := hin hmemkeys
  have hrebuild : cfg.rebuild ov = some u := hfold
  have hsome : (findFromHighest (allSources cfg ov) name).isSome = true := by
    refine findFromHighest_isSome_of_mem _ name
      (SourceRef.defaults, cfg.cli.command.optionValue) (by simp [allSources]) ?_
    simp only [Command.optionValue]
    obtain ⟨o, ho⟩ := Option.isSome_iff_exists.mp hknown
    simp [ho]
  obtain ⟨vr, hvr⟩ := Option.isSome_iff_exists.mp hsome
  refine ⟨vr.1, vr.2, ?_, ?_, ?_, ?_⟩
  · rw [Config.unifiedValue, hrebuild]
    simp [hval, hvr]
  · rw [Config.unifiedSource, hrebuild]
    simp [hsrc, hvr]
  · exact findFromHighest_some_spec _ name vr.1 vr.2 (by simpa using hvr)
  · have hchg : cfg.changed? ov name =
        some (match vr.2 with
          | SourceRef.defaults => false
          | _ => true) := by
      rw [Config.changed?, Config.unifiedSource, hrebuild]
      simp [hsrc, hvr]
    rw [hchg]
    cases hr : vr.2 <;> simp

/-- A small concrete config used by witnesses: one known option `x`
with compiled default `d`, one file-like caller-added source supplying
`x`, and a command line also supplying `x`. -/
def witnessCfg : Config :=
  { cli := { command := { options := [("x", StringOption ("x") "d")], args := [] },
             optionValues := [("x", "clival")],
             argValues := [] },
    sources := [lookupStr [("x", "fileval")]] }

/-- Closed witness for C1 at a concrete config. -/
theorem c1_resolution_precedence_witness :
    ∃ v r, witnessCfg.unifiedValue [] "x" = some v ∧
      witnessCfg.unifiedSource [] "x" = some r ∧
      (∃ i, ∃ hi : i < (allSources witnessCfg []).length,
        ((allSources witnessCfg []).get ⟨i, hi⟩).1 = r ∧
        ((allSources witnessCfg []).get ⟨i, hi⟩).2 ("x") = some v ∧
        ∀ j, ∀ hj : j < (allSources witnessCfg []).length, i < j →
          ((allSources witnessCfg []).get ⟨j, hj⟩).2 ("x") = none) ∧
      (witnessCfg.changed? [] "x" = some false ↔ r = SourceRef.defaults) :=
  c1_resolution_precedence witnessCfg [] "x" (by decide)
    (fun a ha => absurd ha (by simp [witnessCfg]))

/-- Claim C7: In the resolved view, a positional argument that was
supplied on the command line shadows any like-named named option from
every source (the resolved value is the supplied arg value and the
source is the command line, no matter what the sources provide), while
an optional positional argument that was not supplied does not shadow:
if a like-named named option exists, the resolved value is the ordinary
highest-to-lowest source resolution of that option, and only when no
like-named option exists does the unsupplied arg contribute its
default. -/
theorem c7_positional_args (cfg : Config) (ov : List (String × String))
    (hnodup : (cfg.cli.command.args.map Opt.name).Nodup)
    (pos : Nat) (arg : Opt)
    (hat : cfg.cli.command.args.get? pos = some arg) :
    (∀ v, cfg.cli.argValues.get? pos = some v →
      cfg.unifiedValue ov arg.name = some v ∧
      cfg.unifiedSource ov arg.name = some SourceRef.cli) ∧
    (cfg.cli.argValues.get? pos = none →
      ((cfg.cli.command.options.lookup arg.name).isSome = true →
        cfg.unifiedValue ov arg.name =
          (findFromHighest (allSources cfg ov) arg.name).map Prod.fst ∧
        cfg.unifiedSource ov arg.name =
          (findFromHighest (allSources cfg ov) arg.name).map Prod.snd) ∧
      (cfg.cli.command.options.lookup arg.name = none →
        cfg.unifiedValue ov arg.name = some arg.dflt ∧
        cfg.unifiedSource ov arg.name = some SourceRef.cli)) := by
  obtain ⟨u, hfold, hin, hout⟩ := optsFold_spec (allSources cfg ov) arg.name
    (argsLoop cfg).2 (argsLoop cfg).1 (rebuild_resolvable cfg ov)
  have hrebuild : cfg.rebuild ov = some u := hfold
  have hargsat := argsFold_at cfg cfg.cli.command.args 0
    (⟨[], []⟩, cfg.cli.command.options) pos arg hat hnodup
  rw [Nat.zero_add] at hargsat
  have hloop1 :
      ((cfg.cli.command.args.enumFrom 0).foldl (argStep cfg)
        (⟨[], []⟩, cfg.cli.command.options)) = argsLoop cfg := rfl
  rw [hloop1] at hargsat
  obtain ⟨hsup, hunsup⟩ := hargsat
  constructor
  · intro v hv
    obtain ⟨h1, h2, h3⟩ := hsup v hv
    have hnotmem : arg.name ∉ (argsLoop cfg).2.map Prod.fst := by
      rw [← lookup_isSome_iff_mem_keys, h3]
      simp
    obtain ⟨hval, hsrcv⟩ := hout hnotmem
    constructor
    · rw [Config.unifiedValue, hrebuild]
      simpa [hval] using h1
    · rw [Config.unifiedSource, hrebuild]
      simpa [hsrcv] using h2
  · intro hv
    obtain ⟨h1, h2, h3⟩ := hunsup hv
    constructor
    · intro hknown
      have hmem : arg.name ∈ (argsLoop cfg).2.map Prod.fst := by
        rw [← lookup_isSome_iff_mem_keys, h3]
        exact hknown
      obtain ⟨hval, hsrcv⟩ := hin hmem
      constructor
      · rw [Config.unifiedValue, hrebuild]
        simpa using hval
      · rw [Config.unifiedSource, hrebuild]
        simpa using hsrcv
    · intro hunknown
      have hnotmem : arg.name ∉ (argsLoop cfg).2.map Prod.fst := by
        rw [← lookup_isSome_iff_mem_keys, h3, hunknown]
        simp
      obtain ⟨hval, hsrcv⟩ := hout hnotmem
      constructor
      · rw [Config.unifiedValue, hrebuild]
        simpa [hval] using h1
      · rw [Config.unifiedSource, hrebuild]
        simpa [hsrcv] using h2

/-- A concrete config with one positional arg named `a`, supplied on
the command line, while a like-named option is supplied by a source. -/
def witnessCfgArgs : Config :=
  { cli := { command := { options := [("a", StringOption ("a") "d")],
                          args := [StringOption ("a") "argdflt"] },
             optionValues := [],
             argValues := ["v1"] },
    sources := [lookupStr [("a", "fileval")]] }

/-- Closed witness for C7: the supplied positional arg `a` shadows the
like-named option. -/
theorem c7_positional_args_witness :
    witnessCfgArgs.unifiedValue [] "a" = some ("v1") ∧
    witnessCfgArgs.unifiedSource [] "a" = some SourceRef.cli :=
  (c7_positional_args witnessCfgArgs [] (by decide) 0
    (StringOption ("a") "argdflt") (by rfl)).1 ("v1") (by rfl)

/-! ## Runtime overrides, the store, and `Clone` (claim C8)

Modelled from the spec: the runtime-override machinery
(`SetRuntimeOverride` and the deep copy of the override map in `Clone`)
is not part of the sources under scrutiny (only its tests are).  The
mutable override maps live in a store and each config holds a reference
into it, so that sharing versus deep-copying of the override map
between a config and its clone is observable in the model. -/

structure World where
  store : List (List (String × String))
deriving DecidableEq

/-- A config together with its override-map reference. -/
structure ConfigRef where
  base : Config
  ovRef : Nat

def World.overridesOf (w : World) (cr : ConfigRef) :
    List (String × String) :=
  w.store.getD cr.ovRef []

/-- Reading an option through a config: resolve with the overrides
reachable from the config's reference. -/
def cfgGet (w : World) (cr : ConfigRef) (name : String) : Option String :=
  cr.base.unifiedValue (w.overridesOf cr) name

/-- Modelled from the spec: `Config.SetRuntimeOverride`, writing
through the config's reference; `none` models the panic for an option
name the active command does not know. -/
def setRuntimeOverride (w : World) (cr : ConfigRef) (name val : String) :
    Option World :=
  if (cr.base.cli.command.options.lookup name).isSome then
    some ⟨w.store.set cr.ovRef ((name, val) :: w.overridesOf cr)⟩
  else none

/-- The model of `Config.Clone` (src/command.go) extended with the spec's deep copy
of the override map: the clone points at a fresh store cell holding a
copy of the original's overrides, never at the original's cell. -/
def cloneConfig (w : World) (cr : ConfigRef) : World × ConfigRef :=
  (⟨w.store ++ [w.overridesOf cr]⟩, ⟨cr.base, w.store.length⟩)

theorem getD_set_ne {α : Type} (l : List α) (i j : Nat) (a dflt : α)
    (h : i ≠ j) : (l.set i a).getD j dflt = l.getD j dflt := by
  simp [List.getD_eq_getElem?_getD, List.getElem?_set_ne h]

/-- Claim C8: After `Clone`, setting a runtime override on the original
never changes any value read from the clone, and setting one on the
clone never changes any value read from the original: the override
state is deep-copied into a fresh cell, not shared. -/
theorem c8_clone_override_isolation (w : World) (cr : ConfigRef)
    (hwf : cr.ovRef < w.store.length) (name val : String) :
    (∀ w1, setRuntimeOverride (cloneConfig w cr).1 cr name val = some w1 →
      ∀ n, cfgGet w1 (cloneConfig w cr).2 n =
        cfgGet (cloneConfig w cr).1 (cloneConfig w cr).2 n) ∧
    (∀ w1,
      setRuntimeOverride (cloneConfig w cr).1 (cloneConfig w cr).2 name val =
        some w1 →
      ∀ n, cfgGet w1 cr n = cfgGet (cloneConfig w cr).1 cr n) := by
  constructor
  · intro w1 hset n
    rw [setRuntimeOverride] at hset
    by_cases hknown : ((cr.base.cli.command.options.lookup name).isSome = true)
    · rw [if_pos hknown] at hset
      have hw1 := (Option.some_injective _ hset).symm
      subst hw1
      rw [cfgGet, cfgGet]
      have hov : (⟨((cloneConfig w cr).1.store.set cr.ovRef
            ((name, val) :: (cloneConfig w cr).1.overridesOf cr))⟩ :
            World).overridesOf (cloneConfig w cr).2 =
          (cloneConfig w cr).1.overridesOf (cloneConfig w cr).2 := by
        rw [World.overridesOf, World.overridesOf]
        exact getD_set_ne _ _ _ _ _ (by
          simp only [cloneConfig]
          omega)
      rw [hov]
    · rw [if_neg hknown] at hset
      exact absurd hset (by simp)
  · intro w1 hset n
    rw [setRuntimeOverride] at hset
    by_cases hknown :
        (((cloneConfig w cr).2.base.cli.command.options.lookup name).isSome
          = true)
    · rw [if_pos hknown] at hset
      have hw1 := (Option.some_injective _ hset).symm
      subst hw1
      rw [cfgGet, cfgGet]
      have hov : (⟨((cloneConfig w cr).1.store.set (cloneConfig w cr).2.ovRef
            ((name, val) ::
              (cloneConfig w cr).1.overridesOf (cloneConfig w cr).2))⟩ :
            World).overridesOf cr = (cloneConfig w cr).1.overridesOf cr := by
        rw [World.overridesOf, World.overridesOf]
        exact getD_set_ne _ _ _ _ _ (by
          simp only [cloneConfig]
          omega)
      rw [hov]
    · rw [if_neg hknown] at hset
      exact absurd hset (by simp)

/-- Closed witness for C8: a concrete clone, a concrete override on the
original, and an unchanged read through the clone. -/
theorem c8_clone_override_isolation_witness :
    cfgGet ⟨[[("x", "v")], []]⟩ ⟨witnessCfg, 1⟩ "x" =
      cfgGet ⟨[[], []]⟩ ⟨witnessCfg, 1⟩ "x" :=
  (c8_clone_override_isolation ⟨[[]]⟩ ⟨witnessCfg, 0⟩ (by decide) "x" "v").1
    ⟨[[("x", "v")], []]⟩ (by rfl) "x"

/-! ## The option file and its parser (src/file.go)

`File.Parse` drives a per-line step over the file's contents: blank
lines are skipped, a line starting with `[` switches the current
section (creating it on first mention), and any other line is split at
the first `#`, normalized into a `(key, value, loose)` token, validated
against the known options and stored into the current section.  In the
Go code `Sections` is a slice of pointers to section objects and
`SectionIndex` maps names to the same pointers; the model stores the
section objects (name and value map) in the list `sections` in append
order — the pointer targets — and lets `sectionIndex` map names to
positions in that list. -/

inductive ParseErr where
  | optionNotDefined (key : String) (source : String)
  | optionMissingValue (name : String) (source : String)
deriving DecidableEq, Repr

structure File where
  path : String
  sections : List (String × List (String × String))
  sectionIndex : List (String × Nat)
  ignoreUnknownOptions : Bool
  parsed : Bool
  contents : List Char
  selected : List String
deriving DecidableEq

/-- The model of `NewFile`, with the raw contents already read (the one-shot `Read`
is not modelled; its result is the `contents` field). -/
def NewFile (path : String) (contents : List Char) (ignore : Bool) : File :=
  ⟨path, [], [], ignore, false, contents, []⟩

/-- The model of `Config.FindOption`: the Go function searches the current command hierarchy and then
every other command hierarchy; the model searches the merged option map
of the active command, which is the option universe of the embedding. -/
def Config.findOption (cfg : Config) (key : String) : Option Opt :=
  cfg.cli.command.options.lookup key

/-- Modelled from the spec: `NormalizeOptionToken` splits a token at
its first `=`, trims the key and the value, and strips a
`loose-`/`loose_` marker from the key; an empty key returns early. -/
def normalizeOptionToken (arg : List Char) :
    List Char × List Char × Bool :=
  match splitAtChar '=' arg with
  | none =>
    let key := trim arg
    if key = [] then ([], [], false)
    else
      let kl := stripLoose key
      (kl.1, [], kl.2)
  | some p =>
    let key := trim p.1
    if key = [] then ([], [], false)
    else
      let kl := stripLoose key
      (kl.1, trim p.2, kl.2)

/-- Drop a trailing carriage return, as `bufio.ScanLines` does. -/
def stripCR (l : List Char) : List Char :=
  if l.getLast? == some '\r' then l.dropLast else l

/-- Split the raw contents into physical lines at every newline. -/
def splitOnChar (t : Char) : List Char → List (List Char)
  | [] => [[]]
  | c :: rest =>
    if c == t then [] :: splitOnChar t rest
    else consHead c (splitOnChar t rest)

def toLines (s : List Char) : List (List Char) :=
  splitOnChar '\n' s

/-- The text before the first `#` of a non-blank, non-header line
(`strings.SplitN(line, "#", 2)[0]`). -/
def lineToken (line : List Char) : List Char :=
  match splitAtChar '#' line with
  | none => line
  | some p => p.1

/-- What a parsed line does to the file state. -/
inductive LineEffect where
  | skip
  | header (name : String)
  | write (key : String) (value : String)
deriving DecidableEq, Repr

/-- The per-line logic of `File.Parse` (src/file.go): left-trim the
line; a blank line is skipped; a line starting with `[` switches
sections, the name being everything between the first and the last
character (this parser performs no bracket validation); otherwise the
text before the first `#` is normalized into a token and the key is
looked up among the known options — an unknown key is skipped when the
token is loose or the file ignores unknown options and is an error
otherwise, and a missing value is an error for a value-required option
and means enabled (`"1"`) for a boolean option. -/
def lineEffect (cfg : Config) (ignoreUnknown : Bool) (path : String)
    (lineNo : Nat) (rawLine : List Char) : Except ParseErr LineEffect :=
  match trimLeft (stripCR rawLine) with
  | [] => .ok .skip
  | c :: restChars =>
    if c == '[' then
      .ok (.header (String.mk restChars.dropLast))
    else
      let kvl := normalizeOptionToken (lineToken (c :: restChars))
      let key := String.mk kvl.1
      let srcStr := path ++ " line " ++ toString lineNo
      match cfg.findOption key with
      | none =>
        if kvl.2.2 || ignoreUnknown then .ok .skip
        else .error (.optionNotDefined key srcStr)
      | some opt =>
        if kvl.2.1 = [] then
          if opt.requireValue then
            .error (.optionMissingValue opt.name srcStr)
          else if opt.typ = OptionType.bool then .ok (.write key ("1"))
          else .ok (.write key (String.mk kvl.2.1))
        else .ok (.write key (String.mk kvl.2.1))

/-- The parser state while folding over lines: the section store, the
name-to-position index, and the position of the current section. -/
structure PState where
  sections : List (String × List (String × String))
  sectionIndex : List (String × Nat)
  cur : Nat
deriving DecidableEq

/-- Switch to a named section, creating and indexing it on first
mention (src/file.go, the `[` branch of `Parse`). -/
def switchSection (st : PState) (name : String) : PState :=
  match st.sectionIndex.lookup name with
  | some p => { st with cur := p }
  | none =>
    { sections := st.sections ++ [(name, [])],
      sectionIndex := (name, st.sections.length) :: st.sectionIndex,
      cur := st.sections.length }

/-- Store a key-value pair into the current section
(`section.Values[key] = value`). -/
def writeCur (st : PState) (key value : String) : PState :=
  let old := st.sections.getD st.cur ("", [])
  { st with sections := st.sections.set st.cur (old.1, (key, value) :: old.2) }

/-- One line of `File.Parse`. -/
def parseStep (cfg : Config) (ignoreUnknown : Bool) (path : String)
    (st : PState) (ln : Nat × List Char) : Except ParseErr PState :=
  match lineEffect cfg ignoreUnknown path ln.1 ln.2 with
  | .error e => .error e
  | .ok .skip => .ok st
  | .ok (.header name) => .ok (switchSection st name)
  | .ok (.write key value) => .ok (writeCur st key value)

/-- The model of `File.Parse` (src/file.go): append a fresh default section — the
parser does not reset previously parsed sections — point the index's
empty name at it, fold the per-line step over the numbered lines, and
mark the file parsed with the default section selected. -/
def parseInit (f : File) : PState :=
  ⟨f.sections ++ [("", [])], ("", f.sections.length) :: f.sectionIndex,
    f.sections.length⟩

/-- The file record produced by a successful parse: new section store
and index, marked parsed, with the default section selected. -/
def parsedFile (f : File) (st : PState) : File :=
  { f with
      sections := st.sections
      sectionIndex := st.sectionIndex
      parsed := true
      selected := [""] }

def File.parse (f : File) (cfg : Config) : Except ParseErr File :=
  match List.foldlM (parseStep cfg f.ignoreUnknownOptions f.path)
      (parseInit f) ((toLines f.contents).enumFrom 1) with
  | .error e => .error e
  | .ok st => .ok (parsedFile f st)

/-- The value visible for `key` under section `nm` through the index. -/
def File.viewValue (f : File) (nm key : String) : Option String :=
  (f.sectionIndex.lookup nm).bind
    (fun p => (f.sections.getD p ("", [])).2.lookup key)

inductive PanicKind where
  | unparsedFile
  | nilSection
deriving DecidableEq, Repr

/-- The selected-section walk of `File.OptionValue`; a selected name
missing from the index is a nil-pointer dereference in Go, modelled as
a panic. -/
def optionValueLoop (f : File) (optionName : String) :
    List String → Except PanicKind (String × Bool)
  | [] => .ok ("", false)
  | nm :: rest =>
    match f.sectionIndex.lookup nm with
    | none => .error .nilSection
    | some p =>
      match (f.sections.getD p ("", [])).2.lookup optionName with
      | some v => .ok (v, true)
      | none => optionValueLoop f optionName rest

/-- The model of `File.OptionValue` (src/file.go): panics on an unparsed file,
otherwise returns the value from the first selected section holding the
option, or `("", false)`. -/
def File.optionValue (f : File) (optionName : String) :
    Except PanicKind (String × Bool) :=
  if f.parsed then optionValueLoop f optionName f.selected
  else .error .unparsedFile

/-- The concrete command and config of the `TestParse` fixture: a
value-required string option `mystring` and a boolean `mybool`. -/
def cfgC4 : Config :=
  ⟨⟨⟨[("mystring", StringOption ("mystring") ""),
      ("mybool", BoolOption ("mybool") false)], []⟩, [], []⟩, []⟩

/-- Claim C4: A known option token that supplied no value enables a
boolean option with the stored value `"1"` and fails parsing with an
option-missing-value error for an option that requires a value; and the
concrete two-line file `mystring=hello\nmybool` parses to exactly one
(default) section with `mystring = "hello"` and `mybool = "1"`. -/
theorem c4_missing_value_handling :
    (∀ cfg ignoreUnknown path lineNo (c : Char) (restChars : List Char)
      (key : List Char) (loose : Bool) (opt : Opt) (rawLine : List Char),
      trimLeft (stripCR rawLine) = c :: restChars →
      (c == '[') = false →
      normalizeOptionToken (lineToken (c :: restChars)) = (key, [], loose) →
      Config.findOption cfg (String.mk key) = some opt →
      (opt.requireValue = true →
        lineEffect cfg ignoreUnknown path lineNo rawLine =
          .error (.optionMissingValue opt.name
            (path ++ " line " ++ toString lineNo))) ∧
      (opt.requireValue = false → opt.typ = OptionType.bool →
        lineEffect cfg ignoreUnknown path lineNo rawLine =
          .ok (.write (String.mk key) "1"))) ∧
    (File.parse (NewFile ("/tmp/fake.cnf") "mystring=hello\nmybool".data false)
        cfgC4).map
      (fun f => (f.sections.length, f.viewValue ("") "mystring",
        f.viewValue ("") "mybool")) = .ok (1, some ("hello"), some ("1")) := by
  constructor
  · intro cfg ignoreUnknown path lineNo c restChars key loose opt rawLine
      hline hc htok hfind
    rw [lineEffect, hline]
    simp only [hc, Bool.false_eq_true, if_false, htok, hfind]
    constructor
    · intro hreq
      simp [hreq]
    · intro hreq htyp
      simp [hreq, htyp]
  · decide

/-- Closed witness for C4: the valueless boolean line `mybool` is
stored as `"1"` and the valueless value-required line `mystring` is an
option-missing-value error. -/
theorem c4_missing_value_handling_witness :
    lineEffect cfgC4 false ("/tmp/fake.cnf") 2 ("mybool".data) =
      .ok (.write ("mybool") "1") ∧
    lineEffect cfgC4 false ("/tmp/fake.cnf") 2 ("mystring".data) =
      .error (.optionMissingValue ("mystring") "/tmp/fake.cnf line 2") := by
  constructor
  · exact (c4_missing_value_handling.1 cfgC4 false ("/tmp/fake.cnf") 2
      'm' "ybool".data ("mybool".data) false (BoolOption ("mybool") false)
      "mybool".data (by decide) (by decide) (by decide) (by decide)).2
      (by decide) (by decide)
  · exact (c4_missing_value_handling.1 cfgC4 false ("/tmp/fake.cnf") 2
      'm' "ystring".data ("mystring".data) false (StringOption ("mystring") "")
      "mystring".data (by decide) (by decide) (by decide) (by decide)).1
      (by decide)

/-- Claim C6: During file parsing, a key-only or key-value token whose
key is not a known option is skipped silently (the state is unchanged
and parsing continues) when the token carried the loose marker or the
parser is configured to ignore unknown options, and otherwise fails
with an option-not-defined error carrying the file path and the line
number. -/
theorem c6_unknown_option_handling
    (cfg : Config) (ignoreUnknown : Bool) (path : String) (lineNo : Nat)
    (st : PState) (c : Char) (restChars : List Char)
    (key value : List Char) (loose : Bool) (rawLine : List Char)
    (hline : trimLeft (stripCR rawLine) = c :: restChars)
    (hc : (c == '[') = false)
    (htok : normalizeOptionToken (lineToken (c :: restChars)) =
      (key, value, loose))
    (hfind : Config.findOption cfg (String.mk key) = none) :
    (loose = true ∨ ignoreUnknown = true →
      parseStep cfg ignoreUnknown path st (lineNo, rawLine) = .ok st) ∧
    (loose = false → ignoreUnknown = false →
      parseStep cfg ignoreUnknown path st (lineNo, rawLine) =
        .error (.optionNotDefined (String.mk key)
          (path ++ " line " ++ toString lineNo))) := by
  have heff : lineEffect cfg ignoreUnknown path lineNo rawLine =
      (if loose || ignoreUnknown then .ok .skip
       else .error (.optionNotDefined (String.mk key)
         (path ++ " line " ++ toString lineNo))) := by
    rw [lineEffect, hline]
    simp only [hc, Bool.false_eq_true, if_false, htok, hfind]
  constructor
  · intro hor
    rw [parseStep]
    simp only [heff]
    rcases hor with h | h <;> simp [h]
  · intro hl hi
    rw [parseStep]
    rw [heff, hl, hi]
    rfl

/-- Closed witness for C6: the unknown keys `loose-nope` (skipped) and
`nope` (error with path and line). -/
theorem c6_unknown_option_handling_witness :
    parseStep cfgC4 false ("/tmp/fake.cnf") ⟨[("", [])], [("", 0)], 0⟩
      (3, "loose-nope=1".data) = .ok ⟨[("", [])], [("", 0)], 0⟩ ∧
    parseStep cfgC4 false ("/tmp/fake.cnf") ⟨[("", [])], [("", 0)], 0⟩
      (3, "nope=1".data) =
      .error (.optionNotDefined ("nope") "/tmp/fake.cnf line 3") := by
  constructor
  · exact (c6_unknown_option_handling cfgC4 false ("/tmp/fake.cnf") 3
      ⟨[("", [])], [("", 0)], 0⟩ 'l' "oose-nope=1".data ("nope".data) ("1".data)
      true ("loose-nope=1".data) (by decide) (by decide) (by decide)
      (by decide)).1 (Or.inl rfl)
  · exact (c6_unknown_option_handling cfgC4 false ("/tmp/fake.cnf") 3
      ⟨[("", [])], [("", 0)], 0⟩ 'n' "ope=1".data ("nope".data) ("1".data)
      false ("nope=1".data) (by decide) (by decide) (by decide)
      (by decide)).2 rfl rfl

/-! ### Facts about the parse fold -/

/-- An index entry, once present, is preserved by the parse fold: the
fold only ever prepends entries for section names that are absent. -/
theorem foldParse_index_preserved (cfg : Config) (ign : Bool) (path : String) :
    ∀ (lines : List (Nat × List Char)) (st st' : PState) (nm : String)
      (p : Nat),
      List.foldlM (parseStep cfg ign path) st lines = .ok st' →
      st.sectionIndex.lookup nm = some p →
      st'.sectionIndex.lookup nm = some p := by
  intro lines
  induction lines with
  | nil =>
    intro st st' nm p hfold hl
    rw [List.foldlM_nil] at hfold
    injection hfold with h
    rw [← h]
    exact hl
  | cons ln ls ih =>
    intro st st' nm p hfold hl
    rw [List.foldlM_cons] at hfold
    cases heff : lineEffect cfg ign path ln.1 ln.2 with
    | error e =>
      rw [parseStep, heff] at hfold
      exact Except.noConfusion hfold
    | ok eff =>
      cases eff with
      | skip =>
        rw [parseStep, heff] at hfold
        exact ih st st' nm p hfold hl
      | header name =>
        rw [parseStep, heff] at hfold
        refine ih (switchSection st name) st' nm p hfold ?_
        rw [switchSection]
        cases hsw : st.sectionIndex.lookup name with
        | some q => exact hl
        | none =>
          have hne : nm ≠ name := by
            intro hc
            rw [hc, hsw] at hl
            exact absurd hl (by simp)
          simpa [lookup_cons_ne name nm _ _ hne] using hl
      | write key value =>
        rw [parseStep, heff] at hfold
        exact ih (writeCur st key value) st' nm p hfold hl

/-- Claim C10: the function `File.OptionValue` on a file that has not been parsed
panics (the loud programmer-error branch); on the result of a
successful `Parse` it never panics: it returns the value from the first
selected section containing the key — after `Parse` the selected
sections are just the default section — or `("", false)` when no
selected section contains it. -/
theorem c10_option_value_safety :
    (∀ (f : File) (k : String), f.parsed = false →
      f.optionValue k = .error PanicKind.unparsedFile) ∧
    (∀ (f0 : File) (cfg : Config) (f : File) (k : String),
      File.parse f0 cfg = .ok f →
      f.optionValue k =
        .ok (match f.viewValue ("") k with
          | some v => (v, true)
          | none => ("", false))) := by
  constructor
  · intro f k hp
    rw [File.optionValue, hp]
    rfl
  · intro f0 cfg f k h
    rw [File.parse] at h
    cases hfold : List.foldlM (parseStep cfg f0.ignoreUnknownOptions f0.path)
        (parseInit f0) ((toLines f0.contents).enumFrom 1) with
    | error e =>
      rw [hfold] at h
      exact absurd h (by simp)
    | ok st =>
      rw [hfold] at h
      have hf : parsedFile f0 st = f := by
        injection h
      subst hf
      rw [parsedFile]
      have hidx : st.sectionIndex.lookup ("") = some f0.sections.length := by
        refine foldParse_index_preserved cfg f0.ignoreUnknownOptions f0.path
          _ (parseInit f0) st ("") f0.sections.length hfold ?_
        rw [parseInit]
        exact lookup_cons_self _ _ _
      rw [File.optionValue]
      simp only [if_true]
      rw [File.viewValue]
      simp only [hidx]
      rw [optionValueLoop]
      simp only [hidx]
      cases hv : (st.sections.getD f0.sections.length ("", [])).2.lookup k with
      | some v =>
        rw [List.getD_eq_getElem?_getD] at hv
        simp [hv]
      | none =>
        rw [List.getD_eq_getElem?_getD] at hv
        simp [hv, optionValueLoop]

/-! ### The section view and the parse-state invariant (claim C9) -/

/-- The name of the current section. -/
def PState.curName (st : PState) : String :=
  (st.sections.getD st.cur ("", [])).1

/-- The value visible for `key` under section `nm` through the index
of a parse state. -/
def PState.view (st : PState) (nm key : String) : Option String :=
  (st.sectionIndex.lookup nm).bind
    (fun p => (st.sections.getD p ("", [])).2.lookup key)

/-- Well-formedness of a parse state: the current position is valid,
every index entry points at an in-range section carrying its name, and
the index maps the current section's name to the current position. -/
def PState.wf (st : PState) : Prop :=
  st.cur < st.sections.length ∧
  (∀ nm p, st.sectionIndex.lookup nm = some p →
    p < st.sections.length ∧ (st.sections.getD p ("", [])).1 = nm) ∧
  st.sectionIndex.lookup st.curName = some st.cur

theorem getD_append_left {α : Type} (l l' : List α) (n : Nat) (d : α)
    (h : n < l.length) : (l ++ l').getD n d = l.getD n d := by
  simp [List.getD_eq_getElem?_getD, List.getElem?_append_left h]

theorem getD_set_self {α : Type} (l : List α) (i : Nat) (a d : α)
    (h : i < l.length) : (l.set i a).getD i d = a := by
  simp [List.getD_eq_getElem?_getD, List.getElem?_set_self, h]

theorem switchSection_curName (st : PState) (hwf : st.wf) (name : String) :
    (switchSection st name).curName = name := by
  rw [switchSection]
  cases hl : st.sectionIndex.lookup name with
  | some p => exact (hwf.2.1 name p hl).2
  | none =>
    rw [PState.curName]
    simp [List.getD_eq_getElem?_getD, List.getElem?_append_right]

theorem switchSection_wf (st : PState) (hwf : st.wf) (name : String) :
    (switchSection st name).wf := by
  obtain ⟨hcur, hidx, hcn⟩ := hwf
  rw [switchSection]
  cases hl : st.sectionIndex.lookup name with
  | some p =>
    refine ⟨(hidx name p hl).1, hidx, ?_⟩
    have : ({ st with cur := p } : PState).curName = name := by
      rw [PState.curName]
      exact (hidx name p hl).2
    rw [this]
    exact hl
  | none =>
    refine ⟨by simp, ?_, ?_⟩
    · intro nm p hlp
      by_cases hnm : nm = name
      · subst hnm
        rw [lookup_cons_self] at hlp
        injection hlp with hp
        subst hp
        constructor
        · simp
        · simp [List.getD_eq_getElem?_getD, List.getElem?_append_right]
      · rw [lookup_cons_ne _ _ _ _ hnm] at hlp
        obtain ⟨h1, h2⟩ := hidx nm p hlp
        refine ⟨by simp; omega, ?_⟩
        rw [getD_append_left _ _ _ _ h1]
        exact h2
    · have hcn' :
          (⟨st.sections ++ [(name, [])],
            (name, st.sections.length) :: st.sectionIndex,
            st.sections.length⟩ : PState).curName = name := by
        rw [PState.curName]
        simp [List.getD_eq_getElem?_getD, List.getElem?_append_right]
      rw [hcn']
      exact lookup_cons_self _ _ _

theorem switchSection_view (st : PState) (hwf : st.wf) (name : String)
    (nm key : String) :
    (switchSection st name).view nm key = st.view nm key := by
  obtain ⟨hcur, hidx, hcn⟩ := hwf
  rw [switchSection]
  cases hl : st.sectionIndex.lookup name with
  | some p => rfl
  | none =>
    rw [PState.view, PState.view]
    by_cases hnm : nm = name
    · subst hnm
      rw [hl]
      simp only [lookup_cons_self]
      simp [List.getD_eq_getElem?_getD, List.getElem?_append_right,
        List.lookup]
    · simp only [lookup_cons_ne _ _ _ _ hnm]
      cases hlnm : st.sectionIndex.lookup nm with
      | none => rfl
      | some p =>
        simp only [Option.some_bind]
        rw [getD_append_left _ _ _ _ (hidx nm p hlnm).1]

theorem switchSection_index_isSome (st : PState) (name nm : String) :
    (((switchSection st name).sectionIndex.lookup nm).isSome = true) ↔
      (nm = name ∨ (st.sectionIndex.lookup nm).isSome = true) := by
  rw [switchSection]
  cases hl : st.sectionIndex.lookup name with
  | some p =>
    constructor
    · intro h
      exact Or.inr h
    · intro h
      rcases h with h | h
      · subst h
        simp [hl]
      · exact h
  | none =>
    by_cases hnm : nm = name
    · subst hnm
      simp [lookup_cons_self]
    · simp only [lookup_cons_ne _ _ _ _ hnm]
      constructor
      · exact Or.inr
      · intro h
        rcases h with h | h
        · exact absurd h hnm
        · exact h

theorem switchSection_length_of_present (st : PState) (name : String)
    (h : (st.sectionIndex.lookup name).isSome = true) :
    (switchSection st name).sections.length = st.sections.length := by
  rw [switchSection]
  cases hl : st.sectionIndex.lookup name with
  | some p => rfl
  | none => rw [hl] at h; exact absurd h (by simp)

theorem writeCur_curName (st : PState) (k v : String) :
    (writeCur st k v).curName = st.curName := by
  rw [writeCur, PState.curName, PState.curName]
  by_cases h : st.cur < st.sections.length
  · simp only
    rw [getD_set_self _ _ _ _ h]
  · have hge : st.sections.length ≤ st.cur := Nat.le_of_not_lt h
    simp only
    rw [List.getD_eq_getElem?_getD, List.getD_eq_getElem?_getD]
    rw [List.getElem?_eq_none (by simpa using hge),
      List.getElem?_eq_none (by exact hge)]

theorem writeCur_wf (st : PState) (hwf : st.wf) (k v : String) :
    (writeCur st k v).wf := by
  obtain ⟨hcur, hidx, hcn⟩ := hwf
  refine ⟨by simpa [writeCur] using hcur, ?_, ?_⟩
  · intro nm p hlp
    rw [writeCur] at hlp ⊢
    simp only at hlp ⊢
    obtain ⟨h1, h2⟩ := hidx nm p hlp
    refine ⟨by simpa using h1, ?_⟩
    by_cases hp : p = st.cur
    · subst hp
      rw [getD_set_self _ _ _ _ h1]
      simpa using h2
    · rw [getD_set_ne _ _ _ _ _ (fun hc => hp hc.symm)]
      exact h2
  · rw [writeCur_curName]
    have : (writeCur st k v).cur = st.cur := rfl
    rw [this]
    exact hcn

theorem writeCur_view (st : PState) (hwf : st.wf) (k v nm key : String) :
    (writeCur st k v).view nm key =
      if nm = st.curName ∧ k = key then some v else st.view nm key := by
  obtain ⟨hcur, hidx, hcn⟩ := hwf
  rw [PState.view, PState.view]
  have hidxw : (writeCur st k v).sectionIndex = st.sectionIndex := rfl
  rw [hidxw]
  by_cases hnm : nm = st.curName
  · subst hnm
    rw [hcn]
    simp only [Option.some_bind]
    rw [writeCur]
    simp only
    rw [getD_set_self _ _ _ _ hcur]
    by_cases hk : k = key
    · subst hk
      simp [lookup_cons_self]
    · rw [lookup_cons_ne _ _ _ _ (fun hc => hk hc.symm)]
      simp [hk]
  · cases hlnm : st.sectionIndex.lookup nm with
    | none => simp [hnm]
    | some p =>
      have hp : p ≠ st.cur := by
        intro hc
        have h2 := (hidx nm p hlnm).2
        rw [hc] at h2
        exact hnm h2.symm
      simp only [Option.some_bind]
      rw [writeCur]
      simp only
      rw [getD_set_ne _ _ _ _ _ (fun hc => hp hc.symm)]
      simp [hnm]

/-- Left-biased choice on options. -/
def orO {α : Type} (a b : Option α) : Option α :=
  match a with
  | some v => some v
  | none => b

theorem orO_none_right {α : Type} (a : Option α) : orO a none = a := by
  cases a <;> rfl

theorem orO_self {α : Type} (a : Option α) : orO a a = a := by
  cases a <;> rfl

/-- The value that the numbered lines write for `key` of section `nm`,
starting with current section `cn`; later lines win. -/
def linesView (cfg : Config) (ign : Bool) (path : String) :
    String → List (Nat × List Char) → String → String → Option String
  | _, [], _, _ => none
  | cn, ln :: ls, nm, key =>
    match lineEffect cfg ign path ln.1 ln.2 with
    | .error _ => linesView cfg ign path cn ls nm key
    | .ok .skip => linesView cfg ign path cn ls nm key
    | .ok (.header h) => linesView cfg ign path h ls nm key
    | .ok (.write k v) =>
      orO (linesView cfg ign path cn ls nm key)
        (if nm = cn ∧ k = key then some v else none)

/-- The section names of the header lines. -/
def headerNames (cfg : Config) (ign : Bool) (path : String) :
    List (Nat × List Char) → List String
  | [] => []
  | ln :: ls =>
    match lineEffect cfg ign path ln.1 ln.2 with
    | .ok (.header h) => h :: headerNames cfg ign path ls
    | _ => headerNames cfg ign path ls

/-- The parse fold, characterized: it preserves well-formedness; the
final view of every section and key is the lines' own writes overriding
the incoming view; a name is indexed afterwards exactly when it is a
header name of the lines or was indexed before; and when every header
name is already indexed the section store does not grow. -/
theorem foldParse_spec (cfg : Config) (ign : Bool) (path : String) :
    ∀ (lines : List (Nat × List Char)) (st st' : PState),
      st.wf →
      List.foldlM (parseStep cfg ign path) st lines = .ok st' →
      st'.wf ∧
      (∀ nm key, st'.view nm key =
        orO (linesView cfg ign path st.curName lines nm key)
          (st.view nm key)) ∧
      (∀ nm, ((st'.sectionIndex.lookup nm).isSome = true) ↔
        (nm ∈ headerNames cfg ign path lines ∨
          (st.sectionIndex.lookup nm).isSome = true)) ∧
      ((∀ h ∈ headerNames cfg ign path lines,
          (st.sectionIndex.lookup h).isSome = true) →
        st'.sections.length = st.sections.length) := by
  intro lines
  induction lines with
  | nil =>
    intro st st' hwf hfold
    rw [List.foldlM_nil] at hfold
    injection hfold with h
    subst h
    refine ⟨hwf, ?_, ?_, fun _ => rfl⟩
    · intro nm key
      rfl
    · intro nm
      simp [headerNames]
  | cons ln ls ih =>
    intro st st' hwf hfold
    rw [List.foldlM_cons] at hfold
    cases heff : lineEffect cfg ign path ln.1 ln.2 with
    | error e =>
      rw [parseStep, heff] at hfold
      exact Except.noConfusion hfold
    | ok eff =>
      cases eff with
      | skip =>
        rw [parseStep, heff] at hfold
        have hfold' : List.foldlM (parseStep cfg ign path) st ls = .ok st' :=
          hfold
        obtain ⟨hwf', hview, hidx, hlen⟩ := ih st st' hwf hfold'
        refine ⟨hwf', ?_, ?_, ?_⟩
        · intro nm key
          rw [hview nm key]
          simp [linesView, heff]
        · intro nm
          rw [hidx nm]
          simp [headerNames, heff]
        · intro hpres
          refine hlen ?_
          intro h hh
          refine hpres h ?_
          simpa [headerNames, heff] using hh
      | header name =>
        rw [parseStep, heff] at hfold
        have hfold' : List.foldlM (parseStep cfg ign path)
            (switchSection st name) ls = .ok st' := hfold
        obtain ⟨hwf', hview, hidx, hlen⟩ :=
          ih (switchSection st name) st' (switchSection_wf st hwf name) hfold'
        refine ⟨hwf', ?_, ?_, ?_⟩
        · intro nm key
          rw [hview nm key, switchSection_curName st hwf name,
            switchSection_view st hwf name nm key]
          simp [linesView, heff]
        · intro nm
          rw [hidx nm, switchSection_index_isSome st name nm]
          simp only [headerNames, heff, List.mem_cons]
          tauto
        · intro hpres
          have hname : (st.sectionIndex.lookup name).isSome = true := by
            refine hpres name ?_
            simp [headerNames, heff]
          rw [hlen ?_, switchSection_length_of_present st name hname]
          intro h hh
          rw [switchSection_index_isSome st name h]
          refine Or.inr (hpres h ?_)
          simp [headerNames, heff, hh]
      | write k v =>
        rw [parseStep, heff] at hfold
        have hfold' : List.foldlM (parseStep cfg ign path)
            (writeCur st k v) ls = .ok st' := hfold
        obtain ⟨hwf', hview, hidx, hlen⟩ :=
          ih (writeCur st k v) st' (writeCur_wf st hwf k v) hfold'
        have hcn : (writeCur st k v).curName = st.curName :=
          writeCur_curName st k v
        refine ⟨hwf', ?_, ?_, ?_⟩
        · intro nm key
          rw [hview nm key, hcn, writeCur_view st hwf k v nm key]
          simp only [linesView, heff]
          cases hlv : linesView cfg ign path st.curName ls nm key with
          | some r => rfl
          | none =>
            by_cases hcond : nm = st.curName ∧ k = key
            · simp [orO, hcond]
            · simp [orO, hcond]
        · intro nm
          rw [hidx nm]
          have : (writeCur st k v).sectionIndex = st.sectionIndex := rfl
          rw [this]
          simp [headerNames, heff]
        · intro hpres
          have hlenw : (writeCur st k v).sections.length =
              st.sections.length := by
            rw [writeCur]
            simp
          rw [hlen ?_, hlenw]
          intro h hh
          exact hpres h (by simpa [headerNames, heff] using hh)

/-- Whether the parse fold fails does not depend on the starting state:
every error condition is a property of the line and the config alone. -/
theorem foldParse_isOk (cfg : Config) (ign : Bool) (path : String) :
    ∀ (lines : List (Nat × List Char)) (st1 st2 : PState),
      isError (List.foldlM (parseStep cfg ign path) st1 lines) =
        isError (List.foldlM (parseStep cfg ign path) st2 lines) := by
  intro lines
  induction lines with
  | nil => intro st1 st2; rfl
  | cons ln ls ih =>
    intro st1 st2
    rw [List.foldlM_cons, List.foldlM_cons]
    cases heff : lineEffect cfg ign path ln.1 ln.2 with
    | error e =>
      simp only [parseStep, heff]
    | ok eff =>
      cases eff with
      | skip =>
        simp only [parseStep, heff]
        exact ih st1 st2
      | header name =>
        simp only [parseStep, heff]
        exact ih (switchSection st1 name) (switchSection st2 name)
      | write key value =>
        simp only [parseStep, heff]
        exact ih (writeCur st1 key value) (writeCur st2 key value)

theorem getD_append_self {α : Type} (l : List α) (a d : α) :
    (l ++ [a]).getD l.length d = a := by
  induction l with
  | nil => rfl
  | cons x xs ih => simp [ih]

theorem parse_ok_elim (f : File) (cfg : Config) (g : File)
    (h : File.parse f cfg = .ok g) :
    ∃ st, List.foldlM (parseStep cfg f.ignoreUnknownOptions f.path)
        (parseInit f) ((toLines f.contents).enumFrom 1) = .ok st ∧
      g = parsedFile f st := by
  rw [File.parse] at h
  cases hfold : List.foldlM (parseStep cfg f.ignoreUnknownOptions f.path)
      (parseInit f) ((toLines f.contents).enumFrom 1) with
  | error e =>
    rw [hfold] at h
    exact Except.noConfusion h
  | ok st =>
    rw [hfold] at h
    refine ⟨st, rfl, ?_⟩
    injection h with h'
    exact h'.symm

theorem parse_eq_of_fold (f : File) (cfg : Config) (st : PState)
    (h : List.foldlM (parseStep cfg f.ignoreUnknownOptions f.path)
      (parseInit f) ((toLines f.contents).enumFrom 1) = .ok st) :
    File.parse f cfg = .ok (parsedFile f st) := by
  rw [File.parse, h]

/-- The index-entry condition of `PState.wf`, stated for a file. -/
def File.idxOk (f : File) : Prop :=
  ∀ nm p, f.sectionIndex.lookup nm = some p →
    p < f.sections.length ∧ (f.sections.getD p ("", [])).1 = nm

theorem parseInit_wf (f : File) (hidx : f.idxOk) : (parseInit f).wf := by
  refine ⟨by simp [parseInit], ?_, ?_⟩
  · intro nm p hlp
    rw [parseInit] at hlp ⊢
    simp only at hlp ⊢
    by_cases hnm : nm = ""
    · subst hnm
      rw [lookup_cons_self] at hlp
      injection hlp with hp
      subst hp
      refine ⟨by simp, ?_⟩
      rw [getD_append_self]
    · rw [lookup_cons_ne _ _ _ _ hnm] at hlp
      obtain ⟨h1, h2⟩ := hidx nm p hlp
      refine ⟨by simp; omega, ?_⟩
      rw [getD_append_left _ _ _ _ h1]
      exact h2
  · have hcn : (parseInit f).curName = "" := by
      rw [PState.curName, parseInit]
      simp only
      rw [getD_append_self]
    rw [hcn, parseInit]
    simp only
    exact lookup_cons_self _ _ _

theorem parseInit_curName (f : File) : (parseInit f).curName = "" := by
  rw [PState.curName, parseInit]
  simp only
  rw [getD_append_self]

theorem parseInit_view (f : File) (hidx : f.idxOk) (nm key : String) :
    (parseInit f).view nm key =
      if nm = "" then none else f.viewValue nm key := by
  rw [PState.view, parseInit]
  simp only
  by_cases hnm : nm = ""
  · subst hnm
    rw [lookup_cons_self]
    simp only [Option.some_bind]
    rw [getD_append_self]
    simp [List.lookup]
  · rw [lookup_cons_ne _ _ _ _ hnm, File.viewValue]
    simp only [hnm, if_false]
    cases hlnm : f.sectionIndex.lookup nm with
    | none => rfl
    | some p =>
      simp only [Option.some_bind]
      rw [getD_append_left _ _ _ _ (hidx nm p hlnm).1]

/-- Claim C9, counterexample: Re-parsing the same raw contents does not
reproduce an equal section list: for the one-line file
`mystring=hello`, the second `Parse` leaves a section list different
from the first one (it has gained a duplicate default section). -/
theorem c9_reparse_counterexample :
    (File.parse (NewFile ("/tmp/fake.cnf") "mystring=hello".data false)
        cfgC4).bind
      (fun f1 => (File.parse f1 cfgC4).map
        (fun f2 => decide (f2.sections = f1.sections))) = .ok false := by
  decide

/-- Claim C9, amended: Re-invoking `Parse` on the same raw contents is
not idempotent on the section list: the second call appends one more
(default) section, so the list grows by exactly one.  What is
preserved is the view through the section index: the set of indexed
section names and every per-section key-to-value mapping reachable
through the index are unchanged, and the second parse succeeds. -/
theorem c9_reparse_view_stable (cfg : Config) (path : String) (ign : Bool)
    (contents : List Char) (f1 : File)
    (h1 : File.parse (NewFile path contents ign) cfg = .ok f1) :
    ∃ f2, File.parse f1 cfg = .ok f2 ∧
      (∀ nm key, f2.viewValue nm key = f1.viewValue nm key) ∧
      (∀ nm, ((f2.sectionIndex.lookup nm).isSome = true) ↔
        ((f1.sectionIndex.lookup nm).isSome = true)) ∧
      f2.sections.length = f1.sections.length + 1 := by
  obtain ⟨st1, hfold1, hf1⟩ := parse_ok_elim _ cfg f1 h1
  subst hf1
  have hwf0 : (parseInit (NewFile path contents ign)).wf := by
    refine parseInit_wf _ ?_
    intro nm p hlp
    exact absurd hlp (by simp [NewFile, List.lookup])
  obtain ⟨hwf1, hview1, hidx1, _⟩ :=
    foldParse_spec cfg (NewFile path contents ign).ignoreUnknownOptions
      (NewFile path contents ign).path _ _ st1 hwf0 hfold1
  set F0 := NewFile path contents ign with hF0
  set F1 := parsedFile F0 st1 with hF1
  have hF1idx : F1.sectionIndex = st1.sectionIndex := rfl
  have hF1secs : F1.sections = st1.sections := rfl
  have hF1view : ∀ nm key, F1.viewValue nm key = st1.view nm key :=
    fun nm key => rfl
  have hF1idxOk : F1.idxOk := by
    intro nm p hlp
    exact hwf1.2.1 nm p hlp
  -- the first run's view in terms of the lines alone
  have hviewLines : ∀ nm key, F1.viewValue nm key =
      linesView cfg F0.ignoreUnknownOptions F0.path ("")
        ((toLines F0.contents).enumFrom 1) nm key := by
    intro nm key
    rw [hF1view nm key, hview1 nm key, parseInit_curName]
    have h0 : (parseInit F0).view nm key = none := by
      rw [parseInit_view _ (by
        intro nm' p hlp
        exact absurd hlp (by simp [hF0, NewFile, List.lookup]))]
      by_cases hnm : nm = ""
      · simp [hnm]
      · simp only [hnm, if_false]
        rw [File.viewValue]
        have : F0.sectionIndex.lookup nm = none := by
          simp [hF0, NewFile, List.lookup]
        rw [this]
        rfl
    rw [h0, orO_none_right]
  -- the second run
  have hwf02 : (parseInit F1).wf := parseInit_wf F1 hF1idxOk
  have hsame : F1.ignoreUnknownOptions = F0.ignoreUnknownOptions := rfl
  have hsamep : F1.path = F0.path := rfl
  have hsamec : F1.contents = F0.contents := rfl
  have hok2 : isError (List.foldlM
      (parseStep cfg F1.ignoreUnknownOptions F1.path) (parseInit F1)
      ((toLines F1.contents).enumFrom 1)) = false := by
    rw [hsame, hsamep, hsamec]
    rw [foldParse_isOk cfg F0.ignoreUnknownOptions F0.path
      ((toLines F0.contents).enumFrom 1) (parseInit F1) (parseInit F0)]
    rw [hfold1]
    rfl
  cases hfold2 : List.foldlM (parseStep cfg F1.ignoreUnknownOptions F1.path)
      (parseInit F1) ((toLines F1.contents).enumFrom 1) with
  | error e =>
    rw [hfold2] at hok2
    exact absurd hok2 (by simp [isError])
  | ok st2 =>
    obtain ⟨hwf2, hview2, hidx2, hlen2⟩ :=
      foldParse_spec cfg F1.ignoreUnknownOptions F1.path _ _ st2 hwf02 hfold2
    refine ⟨parsedFile F1 st2, parse_eq_of_fold F1 cfg st2 hfold2, ?_, ?_, ?_⟩
    · intro nm key
      have hpf2 : (parsedFile F1 st2).viewValue nm key = st2.view nm key :=
        rfl
      rw [hpf2, hview2 nm key, parseInit_curName]
      rw [parseInit_view F1 hF1idxOk nm key]
      have hlines : linesView cfg F1.ignoreUnknownOptions F1.path ("")
          ((toLines F1.contents).enumFrom 1) nm key =
          linesView cfg F0.ignoreUnknownOptions F0.path ("")
            ((toLines F0.contents).enumFrom 1) nm key := rfl
      rw [hlines, ← hviewLines nm key]
      by_cases hnm : nm = ""
      · simp only [hnm, if_true]
        rw [hviewLines ("") key, orO_none_right, ← hviewLines ("") key]
      · simp only [hnm, if_false]
        rw [orO_self]
    · intro nm
      rw [show (parsedFile F1 st2).sectionIndex = st2.sectionIndex from rfl]
      rw [hidx2 nm]
      have hhdr : headerNames cfg F1.ignoreUnknownOptions F1.path
          ((toLines F1.contents).enumFrom 1) =
          headerNames cfg F0.ignoreUnknownOptions F0.path
            ((toLines F0.contents).enumFrom 1) := rfl
      rw [hhdr]
      have hinit2 : ∀ nm', (((parseInit F1).sectionIndex.lookup nm').isSome
          = true) ↔ (nm' = "" ∨ ((F1.sectionIndex.lookup nm').isSome = true))
          := by
        intro nm'
        rw [parseInit]
        simp only
        by_cases hnm : nm' = ""
        · subst hnm
          simp [lookup_cons_self]
        · rw [lookup_cons_ne _ _ _ _ hnm]
          simp [hnm]
      rw [hinit2 nm]
      have hidxLines : ∀ nm', (((F1.sectionIndex.lookup nm').isSome = true) ↔
          (nm' ∈ headerNames cfg F0.ignoreUnknownOptions F0.path
            ((toLines F0.contents).enumFrom 1) ∨ nm' = "")) := by
        intro nm'
        rw [hF1idx, hidx1 nm']
        have : (((parseInit F0).sectionIndex.lookup nm').isSome = true) ↔
            nm' = "" := by
          rw [parseInit]
          simp only
          by_cases hnm : nm' = ""
          · subst hnm
            simp [lookup_cons_self]
          · rw [lookup_cons_ne _ _ _ _ hnm]
            simp [hnm, hF0, NewFile, List.lookup]
        rw [this]
      rw [hidxLines nm]
      tauto
    · have hlenpf : (parsedFile F1 st2).sections.length =
          st2.sections.length := rfl
      have hlen0 : (parseInit F1).sections.length = F1.sections.length + 1 := by
        rw [parseInit]
        simp
      rw [hlenpf, hlen2 ?_, hlen0]
      intro h hh
      have hinit2 : (((parseInit F1).sectionIndex.lookup h).isSome = true) ↔
          (h = "" ∨ ((F1.sectionIndex.lookup h).isSome = true)) := by
        rw [parseInit]
        simp only
        by_cases hnm : h = ""
        · subst hnm
          simp [lookup_cons_self]
        · rw [lookup_cons_ne _ _ _ _ hnm]
          simp [hnm]
      rw [hinit2]
      refine Or.inr ?_
      rw [hF1idx, hidx1 h]
      exact Or.inl hh

/-- The concrete result of the first parse of `mystring=hello`, used by
the C9 witness. -/
def fileC9 : File :=
  ⟨"/tmp/fake.cnf", [("", [("mystring", "hello")])], [("", 0)], false, true,
    "mystring=hello".data, [""]⟩

/-- Closed witness for the amended C9: re-parsing the concrete one-line
file keeps the indexed value of `mystring` and grows the section list
to two sections. -/
theorem c9_reparse_view_stable_witness :
    (File.parse fileC9 cfgC4).map
      (fun f2 => (f2.viewValue ("") "mystring", f2.sections.length)) =
      .ok (some ("hello"), 2) := by
  obtain ⟨f2, hp, hview, hidx, hlen⟩ :=
    c9_reparse_view_stable cfgC4 ("/tmp/fake.cnf") false ("mystring=hello".data)
      fileC9 (by decide)
  rw [hp]
  simp only [Except.map]
  rw [hview ("") "mystring", hlen]
  decide

/-- Closed witness for C10: the unparsed file panics, and the parsed
file returns the stored value without panicking. -/
theorem c10_option_value_safety_witness :
    (NewFile ("/tmp/fake.cnf") "mystring=hello".data false).optionValue
      "mystring" = .error PanicKind.unparsedFile ∧
    (File.parse (NewFile ("/tmp/fake.cnf") "mystring=hello".data false)
        cfgC4).map (fun f => f.optionValue ("mystring")) =
      .ok (.ok ("hello", true)) := by
  constructor
  · exact c10_option_value_safety.1 _ ("mystring") rfl
  · have hp : File.parse (NewFile ("/tmp/fake.cnf") "mystring=hello".data false)
        cfgC4 = .ok fileC9 := by
      decide
    have h2 := c10_option_value_safety.2
      (NewFile ("/tmp/fake.cnf") "mystring=hello".data false) cfgC4 fileC9
      "mystring" hp
    rw [hp]
    simp only [Except.map]
    rw [h2]
    decide


/-! ### Validation of the spec-modelled tokenizer against the src tests

The test vectors below are those of `TestGetSlice` (src/config_test.go)
and `TestParseLine` (src/file_test.go); they pin the spec-modelled
`splitValue` and `parseLine` to the behaviour the repository's own
tests demand. -/

/-- Apply `splitValue` to a string and return strings. -/
def svStr (s : String) (d : Char) (b : Bool) : List String :=
  (splitValue s.data d b).map (fun l => String.mk l)

/-- Build a parsed line from string fields. -/
def mkLine (sec k v cm : String) (kind : LineType) (l : Bool) : ParsedLine :=
  ⟨sec.data, k.data, v.data, cm.data, kind, l⟩

theorem splitValue_matches_src_tests_plain :
    svStr ("hello") ',' false = ["hello"] ∧
    svStr ("hello\\") ',' false = ["hello\\"] ∧
    svStr ("hello, world") ',' false = ["hello", "world"] ∧
    svStr ("outside,\"inside, ok?\",   also outside") ',' false =
      ["outside", "inside, ok?", "also outside"] ∧
    svStr ("escaped\\,delimiter doesn\\'t split, ok?") ',' false =
      ["escaped\\,delimiter doesn\\'t split", "ok?"] ∧
    svStr ("quoted \"mid, value\" doesn\\'t split, either, duh") ',' false =
      ["quoted \"mid, value\" doesn\\'t split", "either", "duh"] ∧
    svStr ("'escaping\\'s ok to prevent early quote end', yay,\" ok \"") ','
      false = ["escaping's ok to prevent early quote end", "yay", "ok"] ∧
    svStr (" space   delimiter") ' ' false = ["space", "delimiter"] := by
  decide

theorem splitValue_matches_src_tests_wrapped :
    svStr ("'fully wrapped in single quotes, commas still split tho, \"nested\\'s ok\"'")
      ',' false =
      ["fully wrapped in single quotes, commas still split tho, \"nested's ok\""] ∧
    svStr ("'fully wrapped in single quotes, commas still split tho, \"nested\\'s ok\"'")
      ',' true =
      ["fully wrapped in single quotes", "commas still split tho",
        "nested's ok"] ∧
    svStr ("\"'quotes',get \\\"tricky\\\", right, 'especially \\\\\\' nested'\"")
      ',' true = ["quotes", "get \"tricky\"", "right", "especially ' nested"] ∧
    svStr ("") ',' false = [] ∧
    svStr ("   ") ',' false = [] ∧
    svStr ("   ") ' ' false = [] ∧
    svStr ("``") ',' true = [] ∧
    svStr (" `  `  ") ',' true = [] ∧
    svStr (" `  `  ") ' ' true = [] := by
  decide

theorem parseLine_matches_src_tests_ok :
    parseLine ("").data = .ok (mkLine ("") "" "" "" .blank false) ∧
    parseLine ("; comments are cool right").data =
      .ok (mkLine ("") "" "" " comments are cool right" .comment false) ∧
    parseLine ("#so are these").data =
      .ok (mkLine ("") "" "" "so are these" .comment false) ∧
    parseLine ("  [awesome]  # very nice section").data =
      .ok (mkLine ("awesome") "" "" " very nice section" .sectionHeader
        false) ∧
    parseLine ("[]").data = .ok (mkLine ("") "" "" "" .sectionHeader false) ∧
    parseLine ("   [cool beans]   # awesome section").data =
      .ok (mkLine ("cool beans") "" "" " awesome section" .sectionHeader
        false) ∧
    parseLine ("  foo").data = .ok (mkLine ("") "foo" "" "" .keyOnly false) ∧
    parseLine (" loose-foo#sup=dup'whatever'").data =
      .ok (mkLine ("") "foo" "" "sup=dup'whatever'" .keyOnly true) ∧
    parseLine ("this  =  that  =  whatever  # okie dokie").data =
      .ok (mkLine ("") "this" "that  =  whatever" " okie dokie" .keyValue
        false) ∧
    parseLine ("  backticks-work = `yep working fine`   ").data =
      .ok (mkLine ("") "backticks-work" "`yep working fine`" "" .keyValue
        false) ∧
    parseLine ("foo='first' part of value only is quoted").data =
      .ok (mkLine ("") "foo" "'first' part of value only is quoted" ""
        .keyValue false) ∧
    parseLine ("foo='first' and last parts of value are 'quoted'").data =
      .ok (mkLine ("") "foo" "'first' and last parts of value are 'quoted'"
        "" .keyValue false) := by
  decide

theorem parseLine_matches_src_tests_err :
    isError (parseLine ("[section   # hmmm").data) = true ∧
    isError (parseLine ("[section] lol # lolol").data) = true ∧
    isError (parseLine ("key\\=still-key = value").data) = true ∧
    isError (parseLine ("no-terminator = \"this quote does not end").data) =
      true ∧
    isError (parseLine ("foo=\"mismatched quotes`").data) = true ∧
    isError (parseLine ("foo=`unbalanced`quotes`").data) = true := by
  decide

/-- Apply `unquote` to a string and return a string. -/
def uqStr (s : String) : String :=
  String.mk (unquote s.data)

theorem unquote_matches_src_tests :
    uqStr ("'quoted'") = "quoted" ∧
    uqStr ("\"quoted\"") = "quoted" ∧
    uqStr ("''") = "" ∧
    uqStr ("`quoted`") = "quoted" ∧
    uqStr ("'something\\'s escaped'") = "something's escaped" ∧
    uqStr ("\"c:\\\\tacotown\"") = "c:\\tacotown" ∧
    uqStr ("'why\\ whatevs'") = "why whatevs" ∧
    uqStr ("something 'something' something") =
      "something 'something' something" ∧
    uqStr ("\"something\" something") = "\"something\" something" ∧
    uqStr ("something `something`") = "something `something`" ∧
    uqStr ("something\\'s still backslashed") =
      "something\\'s still backslashed" ∧
    uqStr ("'even this\\'s still backslashed', they said") =
      "'even this\\'s still backslashed', they said" ∧
    uqStr ("\"hello world\", I say, \"more quoted text but not fully quote wrapped\"") =
      "\"hello world\", I say, \"more quoted text but not fully quote wrapped\"" := by
  decide

end Mybase
